import Mathlib

/-!
# Verification of the runx hyperparameter-space expansion engine

Shallow embedding of `runx/distributions.py`: the distribution data model,
the distribution factory (`load_config`), the space partitioner
(`discrete_continuous_split`), the enumerator (`enumerate_dists`) and the
trial planner (`enumerate_hparams`).

Modelling conventions:
* Python floats are modelled as rationals (`ℚ`); the dyadic values appearing
  in the claims (0.25, 0.5, …) are exact in both representations.
* The shared pseudo-random source (`random`) is modelled as an infinite
  stream of naturals together with a position; every primitive draw consumes
  exactly one stream value.  `random.random()` is the stream value scaled
  into `[0,1)`.
* `random.normalvariate` and the log-uniform transform involve transcendental
  functions with no rational counterpart; their results are represented
  symbolically as tagged values recording the parameters and the consumed
  unit draw.  No claim inspects these values arithmetically.
* Python lists that may hold the `None` placeholder during realization
  assembly are modelled as lists of `Option Primitive`; branches that return
  plain value rows inject them with `Option.some`.
* The mapping passed to `enumerate_hparams` is mutated in place by the
  source; the embedding threads it explicitly and returns the post-state.
-/

namespace Runx

/-- A literal hyperparameter value (the `Primitive` union of the source),
extended with symbolic results for the two transcendental samplers. -/
inductive Primitive where
  | int : Int → Primitive
  | rat : ℚ → Primitive
  | str : String → Primitive
  /-- Symbolic result of `random.normalvariate(mean, std)` for unit draw `u`. -/
  | gaussian (mean std u : ℚ) : Primitive
  /-- Symbolic result of the log-uniform transform `base ** v` where
  `v = log_low + u * (log_high - log_low)` for unit draw `u`. -/
  | logUniformVal (low high base u : ℚ) : Primitive
  deriving DecidableEq, Repr

/-- The shared pseudo-random source: an infinite stream of raw naturals and
the current position.  Each primitive draw consumes one stream value. -/
structure Rng where
  stream : Nat → Nat
  pos : Nat

/-- Consume one raw value from the random source. -/
def Rng.next (g : Rng) : Nat × Rng :=
  (g.stream g.pos, { g with pos := g.pos + 1 })

/-- Advance the random source by `k` draws. -/
def Rng.advance (g : Rng) (k : Nat) : Rng :=
  { g with pos := g.pos + k }

/-- `random.random()`: the raw draw scaled into the unit interval
(CPython produces a 53-bit mantissa). -/
def unitDraw (n : Nat) : ℚ :=
  ((n % 2 ^ 53 : Nat) : ℚ) / (2 ^ 53 : ℚ)

/-- The distribution data model: one constructor per concrete class of
`distributions.py`, carrying exactly the state stored by `__init__`.
`MultinomialDistribution` inherits from `CategoricalDistribution` and calls
`super().__init__(categories)`, leaving the inherited `literal` flag at its
default `False`; the `multinomial` constructor therefore carries no flag. -/
inductive Dist where
  | categorical (categories : List Primitive) (literal : Bool)
  | multinomial (categories : List Primitive) (weights : List ℚ)
  | uniform (low high : ℚ) (is_integer : Bool)
  | normal (mean std : ℚ)
  | logUniform (low high base : ℚ)
  deriving DecidableEq, Repr

/-- `MultinomialDistribution.__init__`: normalizes the weights by their sum
before storing them. -/
def MultinomialDistribution (categories : List Primitive) (weights : List ℚ) :
    Dist :=
  Dist.multinomial categories (weights.map fun w => w / weights.sum)

/-- The stored (normalized) weights of a multinomial; `[]` for the other
variants, which store no weights. -/
def Dist.storedWeights : Dist → List ℚ
  | .multinomial _ ws => ws
  | _ => []

/-- The `is_discrete` property: the base class returns `False`;
`CategoricalDistribution` (and hence `MultinomialDistribution`, which never
overrides it and whose constructor leaves `literal = False`) returns the
`literal` flag. -/
def Dist.is_discrete : Dist → Bool
  | .categorical _ literal => literal
  | .multinomial _ _ => false
  | .uniform _ _ _ => false
  | .normal _ _ => false
  | .logUniform _ _ _ => false

/-- The message of the `NotSupportedException` raised by
`BaseDistribution.enumerate`. -/
def notSupportedMsg : String :=
  "The distribution is not discrete!"

/-- `enumerate()`: `CategoricalDistribution.enumerate` returns the stored
categories unconditionally (`MultinomialDistribution` inherits it); the
remaining variants fall back to `BaseDistribution.enumerate`, which raises
`NotSupportedException`. -/
def Dist.enumerate : Dist → Except String (List Primitive)
  | .categorical categories _ => .ok categories
  | .multinomial categories _ => .ok categories
  | .uniform _ _ _ => .error notSupportedMsg
  | .normal _ _ => .error notSupportedMsg
  | .logUniform _ _ _ => .error notSupportedMsg

/-- Index selected by `random.choices(population, weights, k=1)`: the first
index whose cumulative weight exceeds the unit draw scaled by the total. -/
def weightedIndex (ws : List ℚ) (target : ℚ) : Nat :=
  match ws with
  | [] => 0
  | w :: rest => if target < w then 0 else weightedIndex rest (target - w) + 1

/-- `sample()` for each variant, consuming exactly one draw from the shared
random source:
* categorical: `random.choice(self.categories)`;
* multinomial: `random.choices(self.categories, self.weights, k=1)[0]`;
* uniform: `random.uniform(low, high)`, rounded to an integer when
  `is_integer` is set;
* normal / log-uniform: symbolic (transcendental) results. -/
def Dist.sample (d : Dist) (g : Rng) : Primitive × Rng :=
  match d with
  | .categorical categories _ =>
    let (n, g1) := g.next
    (categories.getD (n % categories.length) (.int 0), g1)
  | .multinomial categories ws =>
    let (n, g1) := g.next
    (categories.getD (weightedIndex ws (unitDraw n * ws.sum)) (.int 0), g1)
  | .uniform low high is_integer =>
    let (n, g1) := g.next
    let v := low + (high - low) * unitDraw n
    (if is_integer then .int (round v) else .rat v, g1)
  | .normal mean std =>
    let (n, g1) := g.next
    (.gaussian mean std (unitDraw n), g1)
  | .logUniform low high base =>
    let (n, g1) := g.next
    (.logUniformVal low high base (unitDraw n), g1)

/-- A tagged distribution descriptor: a dict holding the key `"distribution"`
plus the remaining keys forwarded to the registered constructor.  Keyword
defaults of the Python constructors are resolved at this level (an omitted
`literal` is `false`, an omitted `is_integer` is `false`, omitted `mean`/`std`
are `0`/`1`).  `unknown` stands for a name absent from `_FACTORIES`. -/
inductive Descriptor where
  | uniform (low high : ℚ) (is_integer : Bool)
  | normal (mean std : ℚ)
  | log_uniform (low high base : ℚ)
  | categorical (categories : List Primitive) (literal : Bool)
  | multinomial (categories : List Primitive) (weights : List ℚ)
  | unknown (name : String)
  deriving DecidableEq, Repr

/-- Dispatch through the `_FACTORIES` registry: look the name up and call the
registered constructor with the remaining keys.  An unregistered name raises
`KeyError`. -/
def factoryBuild : Descriptor → Except String Dist
  | .uniform low high is_integer => .ok (.uniform low high is_integer)
  | .normal mean std => .ok (.normal mean std)
  | .log_uniform low high base => .ok (.logUniform low high base)
  | .categorical categories literal => .ok (.categorical categories literal)
  | .multinomial categories weights =>
    .ok (MultinomialDistribution categories weights)
  | .unknown name => .error name

/-- A raw specification as accepted by `load_config`: an existing
`Distribution` instance, a list/tuple of literals, a dict carrying the
`"distribution"` key, or any other single literal. -/
inductive RawSpec where
  | dist : Dist → RawSpec
  | list : List Primitive → RawSpec
  | tagged : Descriptor → RawSpec
  | prim : Primitive → RawSpec
  deriving DecidableEq, Repr

/-- `convert_to_distribution`: a `Distribution` passes through unchanged, a
list/tuple becomes a literal categorical over its elements, and anything else
becomes a one-element literal categorical. -/
def convert_to_distribution : RawSpec → Except String Dist
  | .dist d => .ok d
  | .list xs => .ok (.categorical xs true)
  | .prim p => .ok (.categorical [p] true)
  | .tagged _ => .error "unreachable"

/-- `load_config`: dicts carrying the `"distribution"` key go through the
factory registry; every other value — and every factory result — goes through
`convert_to_distribution`. -/
def load_config (cfg : RawSpec) : Except String Dist :=
  match cfg with
  | .tagged desc =>
    match factoryBuild desc with
    | .error e => .error e
    | .ok v => convert_to_distribution (.dist v)
  | other => convert_to_distribution other

/-- The index-tracking loop body of `discrete_continuous_split`, with `i` the
index of the first distribution of `ds` in the original ordering. -/
def dcsGo (i : Nat) (ds : List Dist) :
    List (Nat × Dist) × List (Nat × Dist) :=
  match ds with
  | [] => ([], [])
  | d :: rest =>
    let (disc, cont) := dcsGo (i + 1) rest
    if d.is_discrete then ((i, d) :: disc, cont) else (disc, (i, d) :: cont)

/-- `discrete_continuous_split`: partition the distributions by
`is_discrete`, keeping each one's original index. -/
def discrete_continuous_split (ds : List Dist) :
    List (Nat × Dist) × List (Nat × Dist) :=
  dcsGo 0 ds

/-- `itertools.product` over lists: all selections of one element per input
list, the rightmost list varying fastest. -/
def cartesianProduct : List (List Primitive) → List (List Primitive)
  | [] => [[]]
  | xs :: rest => xs.flatMap fun x => (cartesianProduct rest).map (x :: ·)

/-- The comprehension `[list(d.enumerate()) for d in distributions]`:
`enumerate()` every distribution left to right, propagating the first
`NotSupportedException`. -/
def enumerateAll : List Dist → Except String (List (List Primitive))
  | [] => .ok []
  | d :: rest =>
    match d.enumerate with
    | .error e => .error e
    | .ok l =>
      match enumerateAll rest with
      | .error e => .error e
      | .ok ls => .ok (l :: ls)

/-- `enumerate_dists`: `enumerate()` every distribution, then take the full
Cartesian product (`itertools.product`). -/
def enumerate_dists (ds : List Dist) : Except String (List (List Primitive)) :=
  match enumerateAll ds with
  | .error e => .error e
  | .ok all_prims => .ok (cartesianProduct all_prims)

/-- `sample_dists`: one `sample()` per distribution, in order, threading the
shared random source. -/
def sample_dists (ds : List Dist) (g : Rng) : List Primitive × Rng :=
  match ds with
  | [] => ([], g)
  | d :: rest =>
    let (x, g1) := d.sample g
    let (xs, g2) := sample_dists rest g1
    (x :: xs, g2)

/-- `random.choice`-style uniform pick of one element (used with the
realization list by `random.choices(realizations, k=num_trials)`). -/
def randomChoice (xs : List (List Primitive)) (g : Rng) :
    List Primitive × Rng :=
  let (n, g1) := g.next
  (xs.getD (n % xs.length) [], g1)

/-- `random.choices(xs, k=k)`: `k` independent uniform picks with
replacement. -/
def randomChoices (xs : List (List Primitive)) (k : Nat) (g : Rng) :
    List (List Primitive) × Rng :=
  match k with
  | 0 => ([], g)
  | k + 1 =>
    let (x, g1) := randomChoice xs g
    let (rest, g2) := randomChoices xs k g1
    (x :: rest, g2)

/-- The list comprehension `[sample_dists(dists) for _ in range(k)]`. -/
def sampleMany (ds : List Dist) (k : Nat) (g : Rng) :
    List (List Primitive) × Rng :=
  match k with
  | 0 => ([], g)
  | k + 1 =>
    let (r, g1) := sample_dists ds g
    let (rest, g2) := sampleMany ds k g1
    (r :: rest, g2)

/-- The normalization loop `for k in hparams: hparams[k] = load_config(...)`,
which mutates the mapping in place.  Returns the post-state of the mapping
together with the list of produced distributions; on a factory failure the
entry being processed and all later entries are left untouched, matching the
partial in-place mutation at the point the exception propagates. -/
def normalizeLoop (hp : List (String × RawSpec)) :
    List (String × RawSpec) × Except String (List Dist) :=
  match hp with
  | [] => ([], .ok [])
  | (k, v) :: rest =>
    match load_config v with
    | .error e => ((k, v) :: rest, .error e)
    | .ok d =>
      let (rest1, res) := normalizeLoop rest
      ((k, .dist d) :: rest1, res.map (d :: ·))

/-- The in-place assignments `ret[idxs[k]] = vals[k]` performed by the two
splice loops of `enumerate_hparams`. -/
def assignAt (ret : List (Option Primitive)) :
    List Nat → List Primitive → List (Option Primitive)
  | [], _ => ret
  | _, [] => ret
  | i :: is2, v :: vs => assignAt (ret.set i (some v)) is2 vs

/-- Assemble one mixed realization: start from `[None] * len(hparams)`,
write the discrete values at their saved indices, then the continuous values
at theirs. -/
def spliceOne (n : Nat) (discIdx : List Nat) (discVals : List Primitive)
    (contIdx : List Nat) (contVals : List Primitive) :
    List (Option Primitive) :=
  assignAt (assignAt (List.replicate n none) discIdx discVals) contIdx contVals

/-- The inner loop of the mixed branch: `num_trials_per_disc` realizations
for one fixed discrete combination, each with a fresh continuous sample. -/
def mixedInner (n : Nat) (discIdx : List Nat) (discReal : List Primitive)
    (contIdx : List Nat) (contD : List Dist) (k : Nat) (g : Rng) :
    List (List (Option Primitive)) × Rng :=
  match k with
  | 0 => ([], g)
  | k + 1 =>
    let (contReal, g1) := sample_dists contD g
    let row := spliceOne n discIdx discReal contIdx contReal
    let (rows, g2) := mixedInner n discIdx discReal contIdx contD k g1
    (row :: rows, g2)

/-- The outer loop of the mixed branch: over the discrete combinations in
Cartesian-product order. -/
def mixedOuter (n : Nat) (discIdx : List Nat) (contIdx : List Nat)
    (contD : List Dist) (perDisc : Nat) (discReals : List (List Primitive))
    (g : Rng) : List (List (Option Primitive)) × Rng :=
  match discReals with
  | [] => ([], g)
  | dr :: rest =>
    let (rows1, g1) := mixedInner n discIdx dr contIdx contD perDisc g
    let (rows2, g2) := mixedOuter n discIdx contIdx contD perDisc rest g1
    (rows1 ++ rows2, g2)

/-- The `ValueError` raised when `num_trials == 0` and a continuous
distribution is present. -/
def continuousTrialsMsg : String :=
  "The number of trials must be specified when optimizing over continuous distributions"

/-- The `ValueError` raised when the required trial count exceeds twice the
allotted budget. -/
def gridTooLargeMsg : String :=
  "The number of required trials is more than double the number of allotted trials"

/-- `math.ceil(num_trials / D) * D`: the smallest multiple of `D` that is at
least `num_trials` (for `D > 0`). -/
def requiredTrials (num_trials D : Nat) : Nat :=
  ((num_trials + D - 1) / D) * D

/-- The body of `enumerate_hparams` after the normalization loop, with `n`
the length of the (mutated) mapping.  Returns either an error or the
realization list and the advanced random source.  Rows are lists of
`Option Primitive`, mirroring the `None`-initialized Python assembly lists;
branches producing plain value rows inject them with `some`.  The
`ZeroDivisionError` branch models the division by `len(discrete_realizations)`
in `math.ceil(num_trials / len(discrete_realizations))` when a discrete
distribution enumerates to the empty list. -/
def plannerCore (n : Nat) (dists : List Dist) (num_trials : Nat) (g : Rng) :
    Except String (List (List (Option Primitive)) × Rng) :=
  let (discrete_dists, continuous_dists) := discrete_continuous_split dists
  if !discrete_dists.isEmpty && continuous_dists.isEmpty then
    match enumerate_dists (discrete_dists.map Prod.snd) with
    | .error e => .error e
    | .ok realizations =>
      if num_trials = 0 ∨ realizations.length < num_trials then
        .ok (realizations.map (List.map some), g)
      else
        let (picks, g1) := randomChoices realizations num_trials g
        .ok (picks.map (List.map some), g1)
  else if num_trials = 0 then
    .error continuousTrialsMsg
  else if !continuous_dists.isEmpty && discrete_dists.isEmpty then
    let (realizations, g1) :=
      sampleMany (continuous_dists.map Prod.snd) num_trials g
    .ok (realizations.map (List.map some), g1)
  else
    match enumerate_dists (discrete_dists.map Prod.snd) with
    | .error e => .error e
    | .ok discrete_realizations =>
      let D := discrete_realizations.length
      if D = 0 then
        .error "ZeroDivisionError"
      else
      let required_trials := requiredTrials num_trials D
      if 2 * num_trials < required_trials then
        .error gridTooLargeMsg
      else
        let num_trials_per_disc := required_trials / D
        let (rows, g1) :=
          mixedOuter n (discrete_dists.map Prod.fst)
            (continuous_dists.map Prod.fst) (continuous_dists.map Prod.snd)
            num_trials_per_disc discrete_realizations g
        .ok (rows, g1)

/-- `enumerate_hparams(hparams, num_trials)`: normalize every value in place
through the factory, then plan the trials.  Returns the post-state of the
(mutated) mapping together with the planner's outcome. -/
def enumerate_hparams (hp : List (String × RawSpec)) (num_trials : Nat)
    (g : Rng) :
    List (String × RawSpec) ×
      Except String (List (List (Option Primitive)) × Rng) :=
  match normalizeLoop hp with
  | (hp1, .error e) => (hp1, .error e)
  | (hp1, .ok dists) => (hp1, plannerCore hp1.length dists num_trials g)

/-! ## Spec-side definitions

`specProductRow` follows the spec's words for the Enumerator: "the full
Cartesian product …, preserving input order as the column order and iterating
the rightmost distribution fastest (standard product order)".  Row `i` of the
product picks, in input order, the element of each list selected by the
mixed-radix digits of `i`, with the rightmost digit varying fastest. -/

/-- Number of rows of the full Cartesian product: the product of the sizes. -/
def sizeProd (Ls : List (List Primitive)) : Nat :=
  (Ls.map List.length).prod

/-- Row `i` of the Cartesian product in standard product order, as described
by the spec: the first column holds element `i / sizeProd rest` of the first
list, and the remaining columns are row `i % sizeProd rest` of the product of
the remaining lists (rightmost varying fastest). -/
def specProductRow (Ls : List (List Primitive)) (i : Nat) : List Primitive :=
  match Ls with
  | [] => []
  | L :: rest =>
    L.getD (i / sizeProd rest) (.int 0) :: specProductRow rest (i % sizeProd rest)

/-- The claim's notion of a value "belonging to" a parameter's distribution:
for a discrete distribution, membership of its enumerable set; for a
non-discrete one, being a possible `sample()` result (for some state of the
shared random source). -/
def belongsTo (d : Dist) (p : Primitive) : Prop :=
  if d.is_discrete = true then ∃ l, d.enumerate = Except.ok l ∧ p ∈ l
  else ∃ gs : Rng, p = (d.sample gs).1

/-! ## Helper lemmas -/

theorem Rng.advance_zero (g : Rng) : g.advance 0 = g := rfl

theorem Rng.advance_advance (g : Rng) (a b : Nat) :
    (g.advance a).advance b = g.advance (a + b) := by
  simp [Rng.advance, Nat.add_assoc]

theorem Rng.next_snd (g : Rng) : (g.next).2 = g.advance 1 := rfl

theorem Dist.sample_snd (d : Dist) (g : Rng) : (d.sample g).2 = g.advance 1 := by
  cases d <;> rfl

theorem sample_dists_snd (ds : List Dist) (g : Rng) :
    (sample_dists ds g).2 = g.advance ds.length := by
  induction ds generalizing g with
  | nil => rfl
  | cons d rest ih =>
    simp only [sample_dists, ih, Dist.sample_snd, Rng.advance_advance,
      List.length_cons, Nat.add_comm]

theorem sample_dists_length (ds : List Dist) (g : Rng) :
    (sample_dists ds g).1.length = ds.length := by
  induction ds generalizing g with
  | nil => rfl
  | cons d rest ih => simp only [sample_dists, List.length_cons, ih]

theorem sample_dists_getD (ds : List Dist) (g : Rng) (j : Nat)
    (hj : j < ds.length) (dfltD : Dist) :
    (sample_dists ds g).1.getD j (.int 0)
      = ((ds.getD j dfltD).sample (g.advance j)).1 := by
  induction ds generalizing g j with
  | nil => simp at hj
  | cons d rest ih =>
    cases j with
    | zero => simp [sample_dists, Rng.advance_zero]
    | succ j =>
      simp only [sample_dists, List.getD_cons_succ]
      rw [ih _ _ (by simpa using hj), Dist.sample_snd, Rng.advance_advance]
      ring_nf

theorem sampleMany_length (ds : List Dist) (k : Nat) (g : Rng) :
    (sampleMany ds k g).1.length = k := by
  induction k generalizing g with
  | zero => rfl
  | succ k ih => simp only [sampleMany, List.length_cons, ih]

theorem sampleMany_getD (ds : List Dist) (k : Nat) (g : Rng) (i : Nat)
    (hi : i < k) :
    (sampleMany ds k g).1.getD i []
      = (sample_dists ds (g.advance (i * ds.length))).1 := by
  induction k generalizing g i with
  | zero => omega
  | succ k ih =>
    cases i with
    | zero => simp [sampleMany, Rng.advance_zero]
    | succ i =>
      simp only [sampleMany, List.getD_cons_succ]
      rw [ih _ _ (by omega), sample_dists_snd, Rng.advance_advance]
      congr 2
      ring_nf

theorem randomChoices_length (xs : List (List Primitive)) (k : Nat) (g : Rng) :
    (randomChoices xs k g).1.length = k := by
  induction k generalizing g with
  | zero => rfl
  | succ k ih => simp only [randomChoices, List.length_cons, ih]

theorem randomChoices_getD (xs : List (List Primitive)) (k : Nat) (g : Rng)
    (i : Nat) (hi : i < k) :
    (randomChoices xs k g).1.getD i []
      = xs.getD (g.stream (g.pos + i) % xs.length) [] := by
  induction k generalizing g i with
  | zero => omega
  | succ k ih =>
    cases i with
    | zero => simp [randomChoices, randomChoice, Rng.next]
    | succ i =>
      simp only [randomChoices, List.getD_cons_succ]
      rw [ih _ _ (by omega)]
      simp [randomChoice, Rng.next, Nat.add_assoc, Nat.add_comm 1 i]

theorem cartesianProduct_length (Ls : List (List Primitive)) :
    (cartesianProduct Ls).length = sizeProd Ls := by
  induction Ls with
  | nil => rfl
  | cons L rest ih =>
    simp only [cartesianProduct, List.length_flatMap, Function.comp_def]
    have h1 : (L.map fun x => ((cartesianProduct rest).map (x :: ·)).length)
        = L.map fun _ => sizeProd rest := by
      apply List.map_congr_left
      intro a _
      rw [List.length_map, ih]
    rw [h1, List.map_const', List.sum_replicate, smul_eq_mul]
    simp [sizeProd]

theorem flatMap_uniform_getD {α β : Type} (l : List α) (f : α → List β)
    (P : Nat) (hf : ∀ a ∈ l, (f a).length = P)
    (i : Nat) (hi : i < l.length * P) (dα : α) (dβ : β) :
    (l.flatMap f).getD i dβ = (f (l.getD (i / P) dα)).getD (i % P) dβ := by
  induction l generalizing i with
  | nil => simp at hi
  | cons a l ih =>
    have hP : 0 < P := by
      rcases Nat.eq_zero_or_pos P with h0 | h
      · simp [h0] at hi
      · exact h
    simp only [List.flatMap_cons]
    by_cases hiP : i < P
    · rw [List.getD_append _ _ _ _ (by rw [hf a (List.mem_cons_self a l)]; exact hiP),
        Nat.div_eq_of_lt hiP, Nat.mod_eq_of_lt hiP, List.getD_cons_zero]
    · push_neg at hiP
      have hlen : (f a).length = P := hf a (List.mem_cons_self a l)
      rw [List.getD_append_right _ _ _ _ (by omega), hlen]
      have hi' : i - P < l.length * P := by
        have : (a :: l).length * P = l.length * P + P := by
          simp [List.length_cons, Nat.succ_mul]
        omega
      rw [ih (fun b hb => hf b (List.mem_cons_of_mem a hb)) _ hi']
      have hdiv : i / P = (i - P) / P + 1 := by
        conv_lhs => rw [show i = (i - P) + P by omega]
        exact Nat.add_div_right _ hP
      have hmod : i % P = (i - P) % P := by
        conv_lhs => rw [show i = (i - P) + P by omega]
        exact Nat.add_mod_right _ _
      rw [hdiv, hmod, List.getD_cons_succ]

theorem cartesianProduct_getD (Ls : List (List Primitive)) (i : Nat)
    (hi : i < sizeProd Ls) :
    (cartesianProduct Ls).getD i [] = specProductRow Ls i := by
  induction Ls generalizing i with
  | nil =>
    have h0 : i = 0 := by
      have : i < 1 := by simpa [sizeProd] using hi
      omega
    subst h0
    rfl
  | cons L rest ih =>
    have hsz : sizeProd (L :: rest) = L.length * sizeProd rest := by
      simp [sizeProd]
    have hP : 0 < sizeProd rest := by
      rcases Nat.eq_zero_or_pos (sizeProd rest) with h0 | h
      · rw [hsz, h0, Nat.mul_zero] at hi; omega
      · exact h
    simp only [cartesianProduct]
    rw [flatMap_uniform_getD L _ (sizeProd rest)
      (fun a _ => by rw [List.length_map, cartesianProduct_length])
      i (by rw [← hsz]; exact hi) (Primitive.int 0) []]
    have hmodlt : i % sizeProd rest < (cartesianProduct rest).length := by
      rw [cartesianProduct_length]; exact Nat.mod_lt _ hP
    rw [List.getD_eq_getElem _ _ (by simpa using hmodlt), List.getElem_map,
      specProductRow, ← List.getD_eq_getElem _ [] hmodlt,
      ih _ (Nat.mod_lt _ hP)]

theorem specProductRow_length (Ls : List (List Primitive)) (i : Nat) :
    (specProductRow Ls i).length = Ls.length := by
  induction Ls generalizing i with
  | nil => rfl
  | cons L rest ih => simp [specProductRow, ih]

theorem specProductRow_getD_mem (Ls : List (List Primitive)) (i : Nat)
    (hi : i < sizeProd Ls) (j : Nat) (hj : j < Ls.length) :
    (specProductRow Ls i).getD j (.int 0) ∈ Ls.getD j [] := by
  induction Ls generalizing i j with
  | nil => simp at hj
  | cons L rest ih =>
    have hsz : sizeProd (L :: rest) = L.length * sizeProd rest := by
      simp [sizeProd]
    have hP : 0 < sizeProd rest := by
      rcases Nat.eq_zero_or_pos (sizeProd rest) with h0 | h
      · rw [hsz, h0, Nat.mul_zero] at hi; omega
      · exact h
    cases j with
    | zero =>
      have hdivlt : i / sizeProd rest < L.length := by
        rw [Nat.div_lt_iff_lt_mul hP]
        rw [hsz] at hi
        omega
      simp only [specProductRow, List.getD_cons_zero]
      rw [List.getD_eq_getElem _ _ hdivlt]
      exact List.getElem_mem _
    | succ j =>
      simp only [specProductRow, List.getD_cons_succ]
      exact ih _ (Nat.mod_lt _ hP) _ (by simpa using hj)

theorem mem_cartesianProduct (Ls : List (List Primitive))
    (row : List Primitive) (hrow : row ∈ cartesianProduct Ls) :
    ∃ i, i < sizeProd Ls ∧ row = specProductRow Ls i := by
  obtain ⟨n, hn, heq⟩ := List.mem_iff_getElem.mp hrow
  have hn' : n < sizeProd Ls := by rwa [cartesianProduct_length] at hn
  refine ⟨n, hn', ?_⟩
  rw [← heq, ← List.getD_eq_getElem _ [] hn, cartesianProduct_getD _ _ hn']

theorem Dist.enumerate_ok_of_discrete (d : Dist) (h : d.is_discrete = true) :
    ∃ l, d.enumerate = Except.ok l := by
  cases d <;> simp_all [Dist.is_discrete, Dist.enumerate]

theorem enumerateAll_ok_of_discrete (ds : List Dist)
    (h : ∀ d ∈ ds, d.is_discrete = true) :
    ∃ Ls, enumerateAll ds = Except.ok Ls := by
  induction ds with
  | nil => exact ⟨[], rfl⟩
  | cons d rest ih =>
    obtain ⟨l, hl⟩ := Dist.enumerate_ok_of_discrete d (h d (List.mem_cons_self d rest))
    obtain ⟨Ls, hLs⟩ := ih fun x hx => h x (List.mem_cons_of_mem d hx)
    exact ⟨l :: Ls, by simp [enumerateAll, hl, hLs]⟩

theorem enumerateAll_ok_length (ds : List Dist) (Ls : List (List Primitive))
    (h : enumerateAll ds = Except.ok Ls) : Ls.length = ds.length := by
  induction ds generalizing Ls with
  | nil => simp only [enumerateAll] at h; cases h; rfl
  | cons d rest ih =>
    simp only [enumerateAll] at h
    cases hd : d.enumerate with
    | error e => rw [hd] at h; cases h
    | ok l =>
      rw [hd] at h
      cases hr : enumerateAll rest with
      | error e => rw [hr] at h; cases h
      | ok ls =>
        rw [hr] at h
        cases h
        simp [ih ls hr]

theorem enumerateAll_ok_getD (ds : List Dist) (Ls : List (List Primitive))
    (h : enumerateAll ds = Except.ok Ls) (j : Nat) (hj : j < ds.length)
    (dfltD : Dist) :
    (ds.getD j dfltD).enumerate = Except.ok (Ls.getD j []) := by
  induction ds generalizing Ls j with
  | nil => simp at hj
  | cons d rest ih =>
    simp only [enumerateAll] at h
    cases hd : d.enumerate with
    | error e => rw [hd] at h; cases h
    | ok l =>
      rw [hd] at h
      cases hr : enumerateAll rest with
      | error e => rw [hr] at h; cases h
      | ok ls =>
        rw [hr] at h
        cases h
        cases j with
        | zero => simpa using hd
        | succ j =>
          simp only [List.getD_cons_succ]
          exact ih ls hr j (by simpa using hj)

theorem dcsGo_fst_mem (i : Nat) (ds : List Dist) (p : Nat × Dist)
    (hp : p ∈ (dcsGo i ds).1) (dfltD : Dist) :
    i ≤ p.1 ∧ p.1 - i < ds.length ∧ ds.getD (p.1 - i) dfltD = p.2
      ∧ p.2.is_discrete = true := by
  induction ds generalizing i with
  | nil => simp [dcsGo] at hp
  | cons d rest ih =>
    simp only [dcsGo] at hp
    by_cases hd : d.is_discrete
    · rw [if_pos hd] at hp
      rcases List.mem_cons.mp hp with h | h
      · subst h
        exact ⟨Nat.le_refl _, by simp, by simp, hd⟩
      · obtain ⟨h1, h2, h3, h4⟩ := ih (i + 1) h
        refine ⟨by omega, by simp; omega, ?_, h4⟩
        rw [show p.1 - i = (p.1 - (i + 1)) + 1 by omega, List.getD_cons_succ]
        exact h3
    · rw [if_neg hd] at hp
      obtain ⟨h1, h2, h3, h4⟩ := ih (i + 1) hp
      refine ⟨by omega, by simp; omega, ?_, h4⟩
      rw [show p.1 - i = (p.1 - (i + 1)) + 1 by omega, List.getD_cons_succ]
      exact h3

theorem dcsGo_snd_mem (i : Nat) (ds : List Dist) (p : Nat × Dist)
    (hp : p ∈ (dcsGo i ds).2) (dfltD : Dist) :
    i ≤ p.1 ∧ p.1 - i < ds.length ∧ ds.getD (p.1 - i) dfltD = p.2
      ∧ p.2.is_discrete = false := by
  induction ds generalizing i with
  | nil => simp [dcsGo] at hp
  | cons d rest ih =>
    simp only [dcsGo] at hp
    by_cases hd : d.is_discrete
    · rw [if_pos hd] at hp
      obtain ⟨h1, h2, h3, h4⟩ := ih (i + 1) hp
      refine ⟨by omega, by simp; omega, ?_, h4⟩
      rw [show p.1 - i = (p.1 - (i + 1)) + 1 by omega, List.getD_cons_succ]
      exact h3
    · rw [if_neg hd] at hp
      rcases List.mem_cons.mp hp with h | h
      · subst h
        exact ⟨Nat.le_refl _, by simp, by simp, by simpa using hd⟩
      · obtain ⟨h1, h2, h3, h4⟩ := ih (i + 1) h
        refine ⟨by omega, by simp; omega, ?_, h4⟩
        rw [show p.1 - i = (p.1 - (i + 1)) + 1 by omega, List.getD_cons_succ]
        exact h3

theorem dcsGo_fst_pairwise (i : Nat) (ds : List Dist) :
    List.Pairwise (· < ·) ((dcsGo i ds).1.map Prod.fst) := by
  induction ds generalizing i with
  | nil => simp [dcsGo]
  | cons d rest ih =>
    simp only [dcsGo]
    by_cases hd : d.is_discrete
    · rw [if_pos hd]
      simp only [List.map_cons]
      refine List.pairwise_cons.mpr ⟨?_, ih (i + 1)⟩
      intro j hj
      obtain ⟨p, hp, hpj⟩ := List.mem_map.mp hj
      have := (dcsGo_fst_mem (i + 1) rest p hp (Dist.categorical [] true)).1
      omega
    · rw [if_neg hd]
      exact ih (i + 1)

theorem dcsGo_snd_pairwise (i : Nat) (ds : List Dist) :
    List.Pairwise (· < ·) ((dcsGo i ds).2.map Prod.fst) := by
  induction ds generalizing i with
  | nil => simp [dcsGo]
  | cons d rest ih =>
    simp only [dcsGo]
    by_cases hd : d.is_discrete
    · rw [if_pos hd]
      exact ih (i + 1)
    · rw [if_neg hd]
      simp only [List.map_cons]
      refine List.pairwise_cons.mpr ⟨?_, ih (i + 1)⟩
      intro j hj
      obtain ⟨p, hp, hpj⟩ := List.mem_map.mp hj
      have := (dcsGo_snd_mem (i + 1) rest p hp (Dist.categorical [] true)).1
      omega

theorem dcsGo_cover (i : Nat) (ds : List Dist) (k : Nat) (hk : k < ds.length)
    (dfltD : Dist) :
    ((ds.getD k dfltD).is_discrete = true
        ∧ (i + k, ds.getD k dfltD) ∈ (dcsGo i ds).1)
      ∨ ((ds.getD k dfltD).is_discrete = false
        ∧ (i + k, ds.getD k dfltD) ∈ (dcsGo i ds).2) := by
  induction ds generalizing i k with
  | nil => simp at hk
  | cons d rest ih =>
    cases k with
    | zero =>
      simp only [List.getD_cons_zero, Nat.add_zero, dcsGo]
      by_cases hd : d.is_discrete
      · left
        rw [if_pos hd]
        exact ⟨hd, List.mem_cons_self _ _⟩
      · right
        rw [if_neg hd]
        exact ⟨by simpa using hd, List.mem_cons_self _ _⟩
    | succ k =>
      have hk' : k < rest.length := by simpa using hk
      simp only [List.getD_cons_succ, dcsGo]
      rcases ih (i + 1) k hk' with ⟨h1, h2⟩ | ⟨h1, h2⟩
      · left
        refine ⟨h1, ?_⟩
        by_cases hd : d.is_discrete
        · rw [if_pos hd]
          rw [show i + (k + 1) = (i + 1) + k by omega]
          exact List.mem_cons_of_mem _ h2
        · rw [if_neg hd]
          rw [show i + (k + 1) = (i + 1) + k by omega]
          exact h2
      · right
        refine ⟨h1, ?_⟩
        by_cases hd : d.is_discrete
        · rw [if_pos hd]
          rw [show i + (k + 1) = (i + 1) + k by omega]
          exact h2
        · rw [if_neg hd]
          rw [show i + (k + 1) = (i + 1) + k by omega]
          exact List.mem_cons_of_mem _ h2

theorem dcsGo_all_discrete (i : Nat) (ds : List Dist)
    (h : ∀ d ∈ ds, d.is_discrete = true) :
    (dcsGo i ds).1.map Prod.snd = ds ∧ (dcsGo i ds).2 = [] := by
  induction ds generalizing i with
  | nil => simp [dcsGo]
  | cons d rest ih =>
    have hd : d.is_discrete = true := h d (List.mem_cons_self d rest)
    obtain ⟨h1, h2⟩ := ih (i + 1) fun x hx => h x (List.mem_cons_of_mem d hx)
    simp [dcsGo, hd, h1, h2]

theorem dcsGo_all_continuous (i : Nat) (ds : List Dist)
    (h : ∀ d ∈ ds, d.is_discrete = false) :
    (dcsGo i ds).1 = [] ∧ (dcsGo i ds).2.map Prod.snd = ds := by
  induction ds generalizing i with
  | nil => simp [dcsGo]
  | cons d rest ih =>
    have hd : d.is_discrete = false := h d (List.mem_cons_self d rest)
    obtain ⟨h1, h2⟩ := ih (i + 1) fun x hx => h x (List.mem_cons_of_mem d hx)
    simp [dcsGo, hd, h1, h2]

theorem assignAt_length (ret : List (Option Primitive)) (is2 : List Nat)
    (vs : List Primitive) : (assignAt ret is2 vs).length = ret.length := by
  induction is2 generalizing ret vs with
  | nil => simp [assignAt]
  | cons i is2 ih =>
    cases vs with
    | nil => simp [assignAt]
    | cons v vs => simp only [assignAt, ih, List.length_set]

theorem assignAt_getD_not_mem (ret : List (Option Primitive)) (is2 : List Nat)
    (vs : List Primitive) (j : Nat) (hj : j ∉ is2) :
    (assignAt ret is2 vs).getD j none = ret.getD j none := by
  induction is2 generalizing ret vs with
  | nil => simp [assignAt]
  | cons i is2 ih =>
    cases vs with
    | nil => simp [assignAt]
    | cons v vs =>
      simp only [assignAt]
      rw [ih _ _ (fun h => hj (List.mem_cons_of_mem i h))]
      have hne : i ≠ j := fun h => hj (h ▸ List.mem_cons_self i is2)
      simp only [List.getD_eq_getElem?_getD, List.getElem?_set_ne hne]

theorem assignAt_getD_at (ret : List (Option Primitive)) (is2 : List Nat)
    (vs : List Primitive) (hnd : is2.Nodup) (k : Nat) (hk : k < is2.length)
    (hkv : k < vs.length) (hb : is2.getD k 0 < ret.length) :
    (assignAt ret is2 vs).getD (is2.getD k 0) none
      = some (vs.getD k (.int 0)) := by
  induction is2 generalizing ret vs k with
  | nil => simp at hk
  | cons i is2 ih =>
    cases vs with
    | nil => simp at hkv
    | cons v vs =>
      cases k with
      | zero =>
        simp only [List.getD_cons_zero, assignAt]
        rw [assignAt_getD_not_mem _ _ _ _ (List.Nodup.not_mem hnd)]
        simp only [List.getD_cons_zero] at hb
        simp only [List.getD_eq_getElem?_getD,
          List.getElem?_set_eq_of_lt _ hb]
        rfl
      | succ k =>
        simp only [List.getD_cons_succ, assignAt]
        exact ih _ _ (List.Nodup.of_cons hnd) k (by simpa using hk)
          (by simpa using hkv) (by simpa [List.length_set] using hb)

theorem spliceOne_length (n : Nat) (discIdx : List Nat)
    (discVals : List Primitive) (contIdx : List Nat)
    (contVals : List Primitive) :
    (spliceOne n discIdx discVals contIdx contVals).length = n := by
  simp [spliceOne, assignAt_length]

theorem spliceOne_getD_cont (n : Nat) (discIdx : List Nat)
    (discVals : List Primitive) (contIdx : List Nat)
    (contVals : List Primitive) (hnd : contIdx.Nodup) (k : Nat)
    (hk : k < contIdx.length) (hkv : k < contVals.length)
    (hb : contIdx.getD k 0 < n) :
    (spliceOne n discIdx discVals contIdx contVals).getD (contIdx.getD k 0) none
      = some (contVals.getD k (.int 0)) := by
  unfold spliceOne
  exact assignAt_getD_at _ _ _ hnd k hk hkv
    (by simpa [assignAt_length] using hb)

theorem spliceOne_getD_disc (n : Nat) (discIdx : List Nat)
    (discVals : List Primitive) (contIdx : List Nat)
    (contVals : List Primitive) (hnd : discIdx.Nodup) (k : Nat)
    (hk : k < discIdx.length) (hkv : k < discVals.length)
    (hb : discIdx.getD k 0 < n)
    (hdisj : discIdx.getD k 0 ∉ contIdx) :
    (spliceOne n discIdx discVals contIdx contVals).getD (discIdx.getD k 0) none
      = some (discVals.getD k (.int 0)) := by
  unfold spliceOne
  rw [assignAt_getD_not_mem _ _ _ _ hdisj]
  exact assignAt_getD_at _ _ _ hnd k hk hkv
    (by simpa [List.length_replicate] using hb)

theorem mixedInner_length (n : Nat) (discIdx : List Nat)
    (discReal : List Primitive) (contIdx : List Nat) (contD : List Dist)
    (k : Nat) (g : Rng) :
    (mixedInner n discIdx discReal contIdx contD k g).1.length = k := by
  induction k generalizing g with
  | zero => rfl
  | succ k ih => simp only [mixedInner, List.length_cons, ih]

theorem mixedInner_snd (n : Nat) (discIdx : List Nat)
    (discReal : List Primitive) (contIdx : List Nat) (contD : List Dist)
    (k : Nat) (g : Rng) :
    (mixedInner n discIdx discReal contIdx contD k g).2
      = g.advance (k * contD.length) := by
  induction k generalizing g with
  | zero => simp [mixedInner, Rng.advance_zero]
  | succ k ih =>
    simp only [mixedInner, ih, sample_dists_snd, Rng.advance_advance]
    congr 1
    ring_nf

theorem mixedInner_getD (n : Nat) (discIdx : List Nat)
    (discReal : List Primitive) (contIdx : List Nat) (contD : List Dist)
    (k : Nat) (g : Rng) (j : Nat) (hj : j < k) :
    (mixedInner n discIdx discReal contIdx contD k g).1.getD j []
      = spliceOne n discIdx discReal contIdx
          (sample_dists contD (g.advance (j * contD.length))).1 := by
  induction k generalizing g j with
  | zero => omega
  | succ k ih =>
    cases j with
    | zero => simp [mixedInner, Rng.advance_zero]
    | succ j =>
      simp only [mixedInner, List.getD_cons_succ]
      rw [ih _ _ (by omega), sample_dists_snd, Rng.advance_advance]
      congr 3
      ring_nf

theorem mixedOuter_length (n : Nat) (discIdx contIdx : List Nat)
    (contD : List Dist) (perDisc : Nat) (discReals : List (List Primitive))
    (g : Rng) :
    (mixedOuter n discIdx contIdx contD perDisc discReals g).1.length
      = discReals.length * perDisc := by
  induction discReals generalizing g with
  | nil => simp [mixedOuter]
  | cons dr rest ih =>
    simp only [mixedOuter, List.length_append, mixedInner_length, ih,
      List.length_cons]
    ring_nf

theorem mixedOuter_getD (n : Nat) (discIdx contIdx : List Nat)
    (contD : List Dist) (perDisc : Nat) (discReals : List (List Primitive))
    (g : Rng) (i : Nat) (hi : i < discReals.length * perDisc) :
    (mixedOuter n discIdx contIdx contD perDisc discReals g).1.getD i []
      = spliceOne n discIdx (discReals.getD (i / perDisc) []) contIdx
          (sample_dists contD (g.advance (i * contD.length))).1 := by
  induction discReals generalizing g i with
  | nil => simp at hi
  | cons dr rest ih =>
    have hP : 0 < perDisc := by
      rcases Nat.eq_zero_or_pos perDisc with h0 | h
      · simp [h0] at hi
      · exact h
    simp only [mixedOuter]
    by_cases hiP : i < perDisc
    · rw [List.getD_append _ _ _ _ (by rw [mixedInner_length]; exact hiP),
        mixedInner_getD _ _ _ _ _ _ _ _ hiP, Nat.div_eq_of_lt hiP,
        List.getD_cons_zero]
    · push_neg at hiP
      rw [List.getD_append_right _ _ _ _ (by rw [mixedInner_length]; omega),
        mixedInner_length]
      have hi' : i - perDisc < rest.length * perDisc := by
        have : (dr :: rest).length * perDisc = rest.length * perDisc + perDisc := by
          simp [List.length_cons, Nat.succ_mul]
        omega
      rw [ih _ _ hi', mixedInner_snd, Rng.advance_advance]
      have hdiv : i / perDisc = (i - perDisc) / perDisc + 1 := by
        conv_lhs => rw [show i = (i - perDisc) + perDisc by omega]
        exact Nat.add_div_right _ hP
      rw [hdiv, List.getD_cons_succ]
      congr 2
      have : perDisc * contD.length + (i - perDisc) * contD.length
          = i * contD.length := by
        rw [← Nat.add_mul]
        congr 1
        omega
      rw [this]

theorem nodup_of_pairwise_lt (l : List Nat) (h : List.Pairwise (· < ·) l) :
    l.Nodup :=
  h.imp fun hlt => Nat.ne_of_lt hlt

theorem dcsGo_disjoint (ds : List Dist) (j : Nat)
    (h1 : j ∈ ((dcsGo 0 ds).1).map Prod.fst)
    (h2 : j ∈ ((dcsGo 0 ds).2).map Prod.fst) : False := by
  obtain ⟨p, hp, hpj⟩ := List.mem_map.mp h1
  obtain ⟨q, hq, hqj⟩ := List.mem_map.mp h2
  obtain ⟨-, -, hp3, hp4⟩ := dcsGo_fst_mem 0 ds p hp (Dist.categorical [] true)
  obtain ⟨-, -, hq3, hq4⟩ := dcsGo_snd_mem 0 ds q hq (Dist.categorical [] true)
  rw [hpj] at hp3
  rw [hqj] at hq3
  rw [hp3] at hq3
  rw [← hq3] at hq4
  rw [hq4] at hp4
  cases hp4

theorem all_discrete_of_cont_empty (ds : List Dist)
    (h : (dcsGo 0 ds).2 = []) : ∀ d ∈ ds, d.is_discrete = true := by
  intro d hd
  obtain ⟨k, hk, heq⟩ := List.mem_iff_getElem.mp hd
  have hgetD : ds.getD k (Dist.categorical [] true) = d := by
    rw [List.getD_eq_getElem _ _ hk, heq]
  rcases dcsGo_cover 0 ds k hk (Dist.categorical [] true) with ⟨h1, -⟩ | ⟨-, h2⟩
  · rw [hgetD] at h1
    exact h1
  · rw [h] at h2
    cases h2

theorem all_continuous_of_disc_empty (ds : List Dist)
    (h : (dcsGo 0 ds).1 = []) : ∀ d ∈ ds, d.is_discrete = false := by
  intro d hd
  obtain ⟨k, hk, heq⟩ := List.mem_iff_getElem.mp hd
  have hgetD : ds.getD k (Dist.categorical [] true) = d := by
    rw [List.getD_eq_getElem _ _ hk, heq]
  rcases dcsGo_cover 0 ds k hk (Dist.categorical [] true) with ⟨-, h1⟩ | ⟨h2, -⟩
  · rw [h] at h1
    cases h1
  · rw [hgetD] at h2
    exact h2

theorem nil_of_both_empty (ds : List Dist) (h1 : (dcsGo 0 ds).1 = [])
    (h2 : (dcsGo 0 ds).2 = []) : ds = [] := by
  cases hds : ds with
  | nil => rfl
  | cons d rest =>
    exfalso
    rw [hds] at h1 h2
    rcases dcsGo_cover 0 (d :: rest) 0 (by simp) (Dist.categorical [] true)
      with ⟨-, hm⟩ | ⟨-, hm⟩
    · rw [h1] at hm
      cases hm
    · rw [h2] at hm
      cases hm

theorem cartesianRow_spec (ds : List Dist) (Ls : List (List Primitive))
    (henum : enumerateAll ds = Except.ok Ls) (r : List Primitive)
    (hr : r ∈ cartesianProduct Ls) :
    r.length = ds.length
    ∧ ∀ (j : Nat), j < ds.length →
        r.getD j (.int 0) ∈ Ls.getD j []
        ∧ (ds.getD j (Dist.categorical [] true)).enumerate
            = Except.ok (Ls.getD j []) := by
  obtain ⟨i, hi, heq⟩ := mem_cartesianProduct Ls r hr
  have hlen := enumerateAll_ok_length ds Ls henum
  constructor
  · rw [heq, specProductRow_length, hlen]
  · intro j hj
    refine ⟨?_, enumerateAll_ok_getD ds Ls henum j hj _⟩
    rw [heq]
    exact specProductRow_getD_mem Ls i hi j (by omega)

theorem load_config_dist_eq (d : Dist) : load_config (.dist d) = .ok d := rfl

theorem normalizeLoop_keys (hp : List (String × RawSpec)) :
    ((normalizeLoop hp).1).map Prod.fst = hp.map Prod.fst := by
  induction hp with
  | nil => rfl
  | cons kv rest ih =>
    obtain ⟨k, v⟩ := kv
    simp only [normalizeLoop]
    cases hv : load_config v with
    | error e => simp
    | ok d => simpa using ih

theorem normalizeLoop_fst_length (hp : List (String × RawSpec)) :
    ((normalizeLoop hp).1).length = hp.length := by
  have h := congrArg List.length (normalizeLoop_keys hp)
  simpa using h

theorem normalizeLoop_ok_snd (hp : List (String × RawSpec)) (ds : List Dist)
    (h : (normalizeLoop hp).2 = Except.ok ds) :
    ((normalizeLoop hp).1).map Prod.snd = ds.map RawSpec.dist := by
  induction hp generalizing ds with
  | nil =>
    simp only [normalizeLoop] at h ⊢
    cases h
    rfl
  | cons kv rest ih =>
    obtain ⟨k, v⟩ := kv
    simp only [normalizeLoop] at h ⊢
    revert h
    cases hv : load_config v with
    | error e => intro h; simp at h
    | ok d =>
      intro h
      dsimp only at h ⊢
      revert h
      cases hrest : (normalizeLoop rest).2 with
      | error e => intro h; simp [Except.map] at h
      | ok ds0 =>
        intro h
        simp only [Except.map] at h
        cases h
        simpa using ih ds0 hrest

theorem normalizeLoop_ok_length (hp : List (String × RawSpec)) (ds : List Dist)
    (h : (normalizeLoop hp).2 = Except.ok ds) : ds.length = hp.length := by
  have h1 := congrArg List.length (normalizeLoop_ok_snd hp ds h)
  have h2 := normalizeLoop_fst_length hp
  simp only [List.length_map] at h1
  omega

theorem normalizeLoop_fixpoint (hp : List (String × RawSpec)) (ds : List Dist)
    (h : (normalizeLoop hp).2 = Except.ok ds) :
    normalizeLoop ((normalizeLoop hp).1) = ((normalizeLoop hp).1, Except.ok ds) := by
  induction hp generalizing ds with
  | nil =>
    simp only [normalizeLoop] at h ⊢
    cases h
    rfl
  | cons kv rest ih =>
    obtain ⟨k, v⟩ := kv
    simp only [normalizeLoop] at h ⊢
    revert h
    cases hv : load_config v with
    | error e => intro h; simp at h
    | ok d =>
      intro h
      dsimp only at h ⊢
      revert h
      cases hrest : (normalizeLoop rest).2 with
      | error e => intro h; simp [Except.map] at h
      | ok ds0 =>
        intro h
        simp only [Except.map] at h
        cases h
        simp only [normalizeLoop, load_config_dist_eq, ih ds0 hrest,
          Except.map]

theorem enumerate_hparams_fst (hp : List (String × RawSpec)) (N : Nat)
    (g : Rng) : (enumerate_hparams hp N g).1 = (normalizeLoop hp).1 := by
  unfold enumerate_hparams
  cases hn : normalizeLoop hp with
  | mk hp1 res =>
    cases res with
    | error e => rfl
    | ok dists => rfl

theorem sum_map_div (l : List ℚ) (c : ℚ) :
    (l.map fun w => w / c).sum = l.sum / c := by
  induction l with
  | nil => simp
  | cons w l ih => simp [ih, add_div]

/-! ## Claims -/

/-- Claim C10: a Multinomial constructed from positive weights stores the
input weights each divided by their sum, the stored weights sum to 1, and
the weights `[1, 1, 2]` are stored exactly as `[0.25, 0.25, 0.5]`. -/
theorem multinomial_normalization (cats : List Primitive) (ws : List ℚ)
    (hpos : ∀ w ∈ ws, 0 < w) (hne : ws ≠ []) :
    (MultinomialDistribution cats ws).storedWeights
        = ws.map (fun w => w / ws.sum)
    ∧ ((MultinomialDistribution cats ws).storedWeights).sum = 1
    ∧ MultinomialDistribution cats [1, 1, 2]
        = Dist.multinomial cats [1/4, 1/4, 1/2] := by
  have hsum : 0 < ws.sum := List.sum_pos ws hpos hne
  refine ⟨rfl, ?_, ?_⟩
  · simp only [MultinomialDistribution, Dist.storedWeights]
    rw [sum_map_div, div_self (ne_of_gt hsum)]
  · simp only [MultinomialDistribution]
    norm_num

/-- Witness for C10 at categories `[]` and weights `[1, 1, 2]`. -/
theorem multinomial_normalization_witness :
    (MultinomialDistribution [] [1, 1, 2]).storedWeights
        = [(1 : ℚ), 1, 2].map (fun w => w / ([(1 : ℚ), 1, 2]).sum)
    ∧ ((MultinomialDistribution [] [1, 1, 2]).storedWeights).sum = 1
    ∧ MultinomialDistribution [] [1, 1, 2]
        = Dist.multinomial [] [1/4, 1/4, 1/2] :=
  multinomial_normalization [] [1, 1, 2]
    (by intro w hw; fin_cases hw <;> norm_num)
    (by simp)

/-- Claim C7: `load_config` returns an existing Distribution unchanged, wraps
a list/tuple as a discrete literal Categorical over its elements, wraps any
other non-tagged literal as a one-element discrete literal Categorical, and
is idempotent: reapplying it to any of its results is the identity. -/
theorem load_config_spec :
    (∀ d : Dist, load_config (RawSpec.dist d) = Except.ok d)
    ∧ (∀ xs, load_config (RawSpec.list xs) = Except.ok (Dist.categorical xs true)
        ∧ (Dist.categorical xs true).is_discrete = true)
    ∧ (∀ p, load_config (RawSpec.prim p) = Except.ok (Dist.categorical [p] true)
        ∧ (Dist.categorical [p] true).is_discrete = true)
    ∧ (∀ (x : RawSpec) (d : Dist), load_config x = Except.ok d
        → load_config (RawSpec.dist d) = Except.ok d) :=
  ⟨fun _ => rfl, fun _ => ⟨rfl, rfl⟩, fun _ => ⟨rfl, rfl⟩, fun _ _ _ => rfl⟩

/-- Witness for C7: the idempotence conjunct applied to a concrete literal
specification. -/
theorem load_config_spec_witness :
    load_config (RawSpec.prim (Primitive.int 5))
        = Except.ok (Dist.categorical [Primitive.int 5] true)
    ∧ load_config (RawSpec.dist (Dist.categorical [Primitive.int 5] true))
        = Except.ok (Dist.categorical [Primitive.int 5] true) :=
  ⟨(load_config_spec.2.2.1 (Primitive.int 5)).1,
    load_config_spec.2.2.2 (RawSpec.prim (Primitive.int 5))
      (Dist.categorical [Primitive.int 5] true) rfl⟩

/-- Counterexample for claim C3: a Categorical constructed through the
factory registry from the tagged descriptor (with the `literal` keyword left
at its default `False`) has `is_discrete = false`, contradicting the claim
that every Categorical is discrete. -/
theorem factory_categorical_not_discrete_cex :
    load_config (RawSpec.tagged
        (Descriptor.categorical [Primitive.int 1, Primitive.int 2] false))
      = Except.ok (Dist.categorical [Primitive.int 1, Primitive.int 2] false)
    ∧ (Dist.categorical [Primitive.int 1, Primitive.int 2] false).is_discrete
      = false :=
  ⟨rfl, rfl⟩

/-- Claim C3 (amended): a Categorical's `is_discrete` equals its `literal`
flag.  Wrapping a literal scalar or list sets the flag, so those instances
are discrete; but the factory registry forwards the descriptor's keys
unchanged — a tagged categorical descriptor without an explicit
`literal: true` produces a non-discrete Categorical, and a Multinomial
(whose constructor leaves the inherited flag at `False`) is never
discrete. -/
theorem is_discrete_literal_flag :
    (∀ cats lit, (Dist.categorical cats lit).is_discrete = lit)
    ∧ (∀ cats ws, (MultinomialDistribution cats ws).is_discrete = false)
    ∧ (∀ cats lit, load_config (RawSpec.tagged (Descriptor.categorical cats lit))
        = Except.ok (Dist.categorical cats lit))
    ∧ (∀ cats ws, load_config (RawSpec.tagged (Descriptor.multinomial cats ws))
        = Except.ok (MultinomialDistribution cats ws))
    ∧ (∀ xs, ∃ d, load_config (RawSpec.list xs) = Except.ok d
        ∧ d.is_discrete = true)
    ∧ (∀ p, ∃ d, load_config (RawSpec.prim p) = Except.ok d
        ∧ d.is_discrete = true) :=
  ⟨fun _ _ => rfl, fun _ _ => rfl, fun _ _ => rfl, fun _ _ => rfl,
    fun xs => ⟨Dist.categorical xs true, rfl, rfl⟩,
    fun p => ⟨Dist.categorical [p] true, rfl, rfl⟩⟩

/-- Counterexample for claim C5: a non-discrete Categorical (the `literal`
flag unset) has `is_discrete = false`, yet `enumerate()` succeeds and
returns its categories rather than raising `NotSupportedException`. -/
theorem nondiscrete_enumerate_succeeds_cex :
    (Dist.categorical [Primitive.int 1, Primitive.int 2] false).is_discrete
      = false
    ∧ (Dist.categorical [Primitive.int 1, Primitive.int 2] false).enumerate
      = Except.ok [Primitive.int 1, Primitive.int 2] :=
  ⟨rfl, rfl⟩

/-- Claim C5 (amended): `enumerate()` succeeds on every distribution whose
`is_discrete` is true, and it raises `NotSupportedException` exactly on the
variants that do not override the base implementation (Uniform, Normal,
LogUniform) — every Categorical and Multinomial returns its category list
from `enumerate()` regardless of `is_discrete`, so a failing `enumerate()`
implies a non-discrete distribution but not conversely. -/
theorem enumerate_success_characterization :
    (∀ d : Dist, d.is_discrete = true → ∃ l, d.enumerate = Except.ok l)
    ∧ (∀ d : Dist,
        (∃ l, d.enumerate = Except.ok l)
          ↔ ((∃ cats lit, d = Dist.categorical cats lit)
            ∨ (∃ cats ws, d = Dist.multinomial cats ws)))
    ∧ (∀ d : Dist, (¬ ∃ l, d.enumerate = Except.ok l)
        → d.enumerate = Except.error notSupportedMsg
          ∧ d.is_discrete = false) := by
  refine ⟨Dist.enumerate_ok_of_discrete, ?_, ?_⟩
  · intro d
    cases d <;> simp [Dist.enumerate]
  · intro d h
    cases d <;> simp_all [Dist.enumerate, Dist.is_discrete]

/-- Witness for C5 (amended): the forward direction applied to a concrete
discrete Categorical. -/
theorem enumerate_success_characterization_witness :
    ∃ l, (Dist.categorical [Primitive.int 7] true).enumerate = Except.ok l :=
  enumerate_success_characterization.1
    (Dist.categorical [Primitive.int 7] true) rfl

/-- Counterexample for claim C9: a call to `enumerate_hparams` mutates the
caller's mapping — after a call on the one-entry mapping `a ↦ 3`, the stored
raw specification is no longer the literal `3` but the Distribution built
from it. -/
theorem hparams_mutation_cex :
    (enumerate_hparams [("a", RawSpec.prim (Primitive.int 3))] 0
        { stream := fun _ => 0, pos := 0 }).1
      ≠ [("a", RawSpec.prim (Primitive.int 3))] := by
  decide

theorem enumerate_hparams_snd_congr (hp hp' hp1 : List (String × RawSpec))
    (dists : List Dist) (N : Nat) (g : Rng)
    (h1 : normalizeLoop hp = (hp1, Except.ok dists))
    (h2 : normalizeLoop hp' = (hp1, Except.ok dists)) :
    (enumerate_hparams hp N g).2 = (enumerate_hparams hp' N g).2 := by
  unfold enumerate_hparams
  rw [h1, h2]

/-- Claim C9 (amended): a call to `enumerate_hparams` in which normalization
succeeds leaves the mapping's keys and their order unchanged, but replaces
each stored raw specification in place by the Distribution that the factory
builds from it; because the factory is idempotent on Distributions, the
mutated mapping is a fixed point, and a repeated call on it is identical to
the original call apart from the shared random source. -/
theorem enumerate_hparams_poststate (hp hp1 : List (String × RawSpec))
    (dists : List Dist) (N : Nat) (g : Rng)
    (hnorm : normalizeLoop hp = (hp1, Except.ok dists)) :
    (enumerate_hparams hp N g).1 = hp1
    ∧ hp1.map Prod.fst = hp.map Prod.fst
    ∧ hp1.map Prod.snd = dists.map RawSpec.dist
    ∧ enumerate_hparams hp1 N g = (hp1, (enumerate_hparams hp N g).2) := by
  have hfst : (normalizeLoop hp).1 = hp1 := by rw [hnorm]
  have hsnd : (normalizeLoop hp).2 = Except.ok dists := by rw [hnorm]
  have hfix := normalizeLoop_fixpoint hp dists hsnd
  rw [hfst] at hfix
  refine ⟨by rw [enumerate_hparams_fst, hfst], ?_, ?_, ?_⟩
  · rw [← hfst]; exact normalizeLoop_keys hp
  · rw [← hfst]; exact normalizeLoop_ok_snd hp dists hsnd
  · have h2 : (enumerate_hparams hp1 N g).2 = (enumerate_hparams hp N g).2 :=
      enumerate_hparams_snd_congr hp1 hp hp1 dists N g hfix hnorm
    have h1 : (enumerate_hparams hp1 N g).1 = hp1 := by
      rw [enumerate_hparams_fst, hfix]
    exact Prod.ext_iff.mpr ⟨h1, h2⟩

/-- Witness for C9 (amended) at the mapping `a ↦ 3` with `num_trials = 0`. -/
theorem enumerate_hparams_poststate_witness :
    (enumerate_hparams [("a", RawSpec.prim (Primitive.int 3))] 0
        { stream := fun _ => 0, pos := 0 }).1
      = [("a", RawSpec.dist (Dist.categorical [Primitive.int 3] true))] :=
  (enumerate_hparams_poststate
    [("a", RawSpec.prim (Primitive.int 3))]
    [("a", RawSpec.dist (Dist.categorical [Primitive.int 3] true))]
    [Dist.categorical [Primitive.int 3] true] 0
    { stream := fun _ => 0, pos := 0 } rfl).1

theorem enumerate_hparams_snd_eq (hp hp1 : List (String × RawSpec))
    (dists : List Dist) (N : Nat) (g : Rng)
    (hnorm : normalizeLoop hp = (hp1, Except.ok dists)) :
    (enumerate_hparams hp N g).2 = plannerCore hp1.length dists N g := by
  unfold enumerate_hparams
  rw [hnorm]

/-- Claim C6: for every sequence of discrete distributions,
`enumerate_dists` returns the full Cartesian product of their `enumerate()`
sets: with `Ls` the per-distribution enumerations (in input order), the
result has as many rows as the product of the set sizes, each row has one
column per input distribution in input order, and row `i` is the
standard-product-order selection `specProductRow Ls i`, the rightmost
distribution varying fastest. -/
theorem enumerate_dists_cartesian (ds : List Dist) (Ls : List (List Primitive))
    (_hdisc : ∀ d ∈ ds, d.is_discrete = true)
    (henum : enumerateAll ds = Except.ok Ls) :
    ∃ rows, enumerate_dists ds = Except.ok rows
      ∧ rows.length = sizeProd Ls
      ∧ (∀ j, j < ds.length →
          (ds.getD j (Dist.categorical [] true)).enumerate
            = Except.ok (Ls.getD j []))
      ∧ (∀ i, i < rows.length → (rows.getD i []).length = ds.length)
      ∧ (∀ i, i < rows.length → rows.getD i [] = specProductRow Ls i) := by
  refine ⟨cartesianProduct Ls, ?_, cartesianProduct_length Ls, ?_, ?_, ?_⟩
  · unfold enumerate_dists
    rw [henum]
  · exact fun j hj => enumerateAll_ok_getD ds Ls henum j hj _
  · intro i hi
    rw [cartesianProduct_length] at hi
    rw [cartesianProduct_getD _ _ hi, specProductRow_length,
      enumerateAll_ok_length ds Ls henum]
  · intro i hi
    rw [cartesianProduct_length] at hi
    exact cartesianProduct_getD _ _ hi

/-- Witness for C6: two discrete two-element categoricals give a four-row
product. -/
theorem enumerate_dists_cartesian_witness :
    ∃ rows, enumerate_dists
        [Dist.categorical [Primitive.int 1, Primitive.int 2] true,
          Dist.categorical [Primitive.str "x", Primitive.str "y"] true]
      = Except.ok rows
    ∧ rows.length = sizeProd [[Primitive.int 1, Primitive.int 2],
        [Primitive.str "x", Primitive.str "y"]] := by
  obtain ⟨rows, h1, h2, -, -, -⟩ := enumerate_dists_cartesian
    [Dist.categorical [Primitive.int 1, Primitive.int 2] true,
      Dist.categorical [Primitive.str "x", Primitive.str "y"] true]
    [[Primitive.int 1, Primitive.int 2],
      [Primitive.str "x", Primitive.str "y"]]
    (by intro d hd; fin_cases hd <;> rfl) rfl
  exact ⟨rows, h1, h2⟩

/-- Counterexample for claim C2: on the empty mapping every parameter's
distribution is (vacuously) discrete and there is no continuous parameter,
yet calling with `num_trials = 0` raises the continuous-trials `ValueError`
instead of returning the full (one empty combination) enumeration, because
the discrete-only branch is guarded by non-emptiness of the discrete list
rather than emptiness of the continuous list. -/
theorem discrete_only_empty_space_cex :
    (enumerate_hparams [] 0 { stream := fun _ => 0, pos := 0 }).2
      = Except.error continuousTrialsMsg := rfl

/-- Claim C2 (amended): for every hyperparameter space with at least one
parameter in which every parameter's distribution is discrete: if
`num_trials` is zero or exceeds the enumeration size, the full enumeration is
returned (every combination exactly once, in Cartesian-product order, random
source untouched); if `0 < num_trials ≤ E`, exactly `num_trials` rows are
returned, each an independent uniform pick (fresh raw draw per pick) from the
full enumeration, so each returned row is a member of the enumeration and
duplicates are permitted. -/
theorem enumerate_hparams_discrete_only (hp hp1 : List (String × RawSpec))
    (dists : List Dist) (N : Nat) (g : Rng)
    (hnorm : normalizeLoop hp = (hp1, Except.ok dists))
    (hall : ∀ d ∈ dists, d.is_discrete = true)
    (hne : dists ≠ []) :
    ∃ realizations, enumerate_dists dists = Except.ok realizations
    ∧ ((N = 0 ∨ realizations.length < N) →
        (enumerate_hparams hp N g).2
          = Except.ok (realizations.map (List.map some), g))
    ∧ (0 < N → N ≤ realizations.length →
        ∃ (picks : List (List Primitive)) (g1 : Rng),
          (enumerate_hparams hp N g).2
            = Except.ok (picks.map (List.map some), g1)
          ∧ picks.length = N
          ∧ (∀ i, i < N → picks.getD i []
              = realizations.getD
                  (g.stream (g.pos + i) % realizations.length) [])
          ∧ (∀ i, i < N → picks.getD i [] ∈ realizations)) := by
  obtain ⟨Ls, hLs⟩ := enumerateAll_ok_of_discrete dists hall
  have hmap : ((discrete_continuous_split dists).1).map Prod.snd = dists :=
    (dcsGo_all_discrete 0 dists hall).1
  have hcont : (discrete_continuous_split dists).2 = [] :=
    (dcsGo_all_discrete 0 dists hall).2
  have hsp : discrete_continuous_split dists
      = ((discrete_continuous_split dists).1, ([] : List (Nat × Dist))) :=
    Prod.ext_iff.mpr ⟨rfl, hcont⟩
  have hdne : ((discrete_continuous_split dists).1).isEmpty = false := by
    cases h : (discrete_continuous_split dists).1 with
    | nil =>
      have hd0 : dists = [] := by rw [← hmap, h]; rfl
      exact absurd hd0 hne
    | cons p rest => rfl
  have hED : enumerate_dists ((discrete_continuous_split dists).1.map Prod.snd)
      = enumerate_dists dists := by
    rw [hmap]
  have hsnd := enumerate_hparams_snd_eq hp hp1 dists N g hnorm
  refine ⟨cartesianProduct Ls, by unfold enumerate_dists; rw [hLs], ?_, ?_⟩
  · intro hN
    rw [hsnd]
    unfold plannerCore
    rw [hsp]
    dsimp only
    rw [if_pos (by rw [hdne]; rfl)]
    rw [hED]
    unfold enumerate_dists
    rw [hLs]
    dsimp only
    rw [if_pos hN]
  · intro hN1 hN2
    refine ⟨(randomChoices (cartesianProduct Ls) N g).1,
      (randomChoices (cartesianProduct Ls) N g).2, ?_, ?_, ?_, ?_⟩
    · rw [hsnd]
      unfold plannerCore
      rw [hsp]
      dsimp only
      rw [if_pos (by rw [hdne]; rfl)]
      rw [hED]
      unfold enumerate_dists
      rw [hLs]
      dsimp only
      rw [if_neg (by omega)]
    · exact randomChoices_length _ _ _
    · intro i hi
      exact randomChoices_getD _ _ _ _ hi
    · intro i hi
      rw [randomChoices_getD _ _ _ _ hi]
      have hpos : 0 < (cartesianProduct Ls).length := by omega
      have hlt : g.stream (g.pos + i) % (cartesianProduct Ls).length
          < (cartesianProduct Ls).length := Nat.mod_lt _ hpos
      rw [List.getD_eq_getElem _ _ hlt]
      exact List.getElem_mem _

/-- Witness for C2 (amended) on the space `a ∈ {1,2}`, `b ∈ {x,y}` with
`num_trials = 3 ≤ 4`. -/
theorem enumerate_hparams_discrete_only_witness :
    ∃ realizations, enumerate_dists
        [Dist.categorical [Primitive.int 1, Primitive.int 2] true,
          Dist.categorical [Primitive.str "x", Primitive.str "y"] true]
      = Except.ok realizations
    ∧ (0 < 3 → 3 ≤ realizations.length →
        ∃ (picks : List (List Primitive)) (g1 : Rng),
          (enumerate_hparams
              [("a", RawSpec.list [Primitive.int 1, Primitive.int 2]),
                ("b", RawSpec.list [Primitive.str "x", Primitive.str "y"])] 3
              { stream := fun n => n, pos := 0 }).2
            = Except.ok (picks.map (List.map some), g1)
          ∧ picks.length = 3
          ∧ (∀ i, i < 3 → picks.getD i []
              = realizations.getD
                  (Rng.stream { stream := fun n => n, pos := 0 }
                      (Rng.pos { stream := fun n => n, pos := 0 } + i)
                    % realizations.length) [])
          ∧ (∀ i, i < 3 → picks.getD i [] ∈ realizations)) := by
  obtain ⟨r, h1, -, h3⟩ := enumerate_hparams_discrete_only
    [("a", RawSpec.list [Primitive.int 1, Primitive.int 2]),
      ("b", RawSpec.list [Primitive.str "x", Primitive.str "y"])]
    [("a", RawSpec.dist
        (Dist.categorical [Primitive.int 1, Primitive.int 2] true)),
      ("b", RawSpec.dist
        (Dist.categorical [Primitive.str "x", Primitive.str "y"] true))]
    [Dist.categorical [Primitive.int 1, Primitive.int 2] true,
      Dist.categorical [Primitive.str "x", Primitive.str "y"] true]
    3 { stream := fun n => n, pos := 0 } rfl
    (by intro d hd; fin_cases hd <;> rfl) (by simp)
  exact ⟨r, h1, h3⟩

theorem requiredTrials_one (N : Nat) : requiredTrials N 1 = N := by
  simp [requiredTrials]

theorem plannerCore_nil (m : Nat) (g : Rng) (n : Nat) :
    plannerCore n [] (m + 1) g
      = Except.ok (mixedOuter n [] [] [] (m + 1) [[]] g) := by
  unfold plannerCore
  rw [show discrete_continuous_split ([] : List Dist)
      = (([] : List (Nat × Dist)), ([] : List (Nat × Dist))) from rfl]
  dsimp only
  rw [if_neg (by simp), if_neg (by omega), if_neg (by simp)]
  rw [show enumerate_dists (List.map Prod.snd ([] : List (Nat × Dist)))
      = Except.ok [[]] from rfl]
  dsimp only
  rw [if_neg (by simp)]
  simp only [List.length_cons, List.length_nil, Nat.zero_add,
    requiredTrials_one, Nat.div_one, Nat.mul_one]
  rw [if_neg (by omega)]
  simp

/-- Claim C4: for every hyperparameter space with no discrete parameter
(purely continuous, including the degenerate empty space), `num_trials = 0`
fails with the continuous-trials configuration error before producing any
realization, and `num_trials = N > 0` returns exactly `N` realizations, each
obtained by one independent `sample()` call per continuous parameter, in
original parameter order. -/
theorem enumerate_hparams_continuous_only (hp hp1 : List (String × RawSpec))
    (dists : List Dist) (N : Nat) (g : Rng)
    (hnorm : normalizeLoop hp = (hp1, Except.ok dists))
    (hall : ∀ d ∈ dists, d.is_discrete = false) :
    (enumerate_hparams hp 0 g).2 = Except.error continuousTrialsMsg
    ∧ (0 < N →
        ∃ (rows : List (List (Option Primitive))) (g1 : Rng),
          (enumerate_hparams hp N g).2 = Except.ok (rows, g1)
          ∧ rows.length = N
          ∧ ∀ i, i < N → rows.getD i []
              = ((sample_dists dists (g.advance (i * dists.length))).1).map
                  some) := by
  have hdiscE : (discrete_continuous_split dists).1 = [] :=
    (dcsGo_all_continuous 0 dists hall).1
  have hmapC : ((discrete_continuous_split dists).2).map Prod.snd = dists :=
    (dcsGo_all_continuous 0 dists hall).2
  have hsp : discrete_continuous_split dists
      = (([] : List (Nat × Dist)), (discrete_continuous_split dists).2) :=
    Prod.ext_iff.mpr ⟨hdiscE, rfl⟩
  cases dists with
  | nil =>
    have hhp : hp = [] := by
      have h0 := normalizeLoop_ok_length hp []
        (by rw [hnorm])
      simpa using (List.length_eq_zero.mp h0.symm)
    subst hhp
    have hhp1 : hp1 = [] := (congrArg Prod.fst hnorm).symm
    subst hhp1
    constructor
    · rfl
    · intro hN
      cases N with
      | zero => omega
      | succ m =>
        refine ⟨(mixedOuter 0 [] [] [] (m + 1) [[]] g).1,
          (mixedOuter 0 [] [] [] (m + 1) [[]] g).2, ?_, ?_, ?_⟩
        · rw [enumerate_hparams_snd_eq [] [] [] (m + 1) g hnorm,
            plannerCore_nil]
          rfl
        · rw [mixedOuter_length]
          simp
        · intro i hi
          rw [mixedOuter_getD 0 [] [] [] (m + 1) [[]] g i (by simpa using hi)]
          simp [spliceOne, assignAt, sample_dists]
  | cons d0 rest =>
    have hcne : ((discrete_continuous_split (d0 :: rest)).2).isEmpty = false := by
      cases h : (discrete_continuous_split (d0 :: rest)).2 with
      | nil =>
        have : d0 :: rest = [] := by rw [← hmapC, h]; rfl
        simp at this
      | cons p ps => rfl
    constructor
    · rw [enumerate_hparams_snd_eq hp hp1 (d0 :: rest) 0 g hnorm]
      unfold plannerCore
      rw [hsp]
      dsimp only
      rw [if_neg (by simp), if_pos rfl]
    · intro hN
      refine ⟨((sampleMany (d0 :: rest) N g).1).map (List.map some),
        (sampleMany ((discrete_continuous_split (d0 :: rest)).2.map Prod.snd)
          N g).2, ?_, ?_, ?_⟩
      · rw [enumerate_hparams_snd_eq hp hp1 (d0 :: rest) N g hnorm]
        unfold plannerCore
        rw [hsp]
        dsimp only
        rw [if_neg (by simp), if_neg (by omega),
          if_pos (by rw [hcne]; rfl), hmapC]
      · rw [List.length_map, sampleMany_length]
      · intro i hi
        have hlen : i < ((sampleMany (d0 :: rest) N g).1).length := by
          rw [sampleMany_length]; exact hi
        rw [List.getD_eq_getElem _ _ (by simpa using hlen), List.getElem_map,
          ← List.getD_eq_getElem _ [] hlen, sampleMany_getD _ _ _ _ hi]

/-- Witness for C4 on the one-parameter normal space with `num_trials = 2`. -/
theorem enumerate_hparams_continuous_only_witness :
    (enumerate_hparams [("a", RawSpec.tagged (Descriptor.normal 0 1))] 0
        { stream := fun n => n, pos := 0 }).2
      = Except.error continuousTrialsMsg
    ∧ (0 < 2 →
        ∃ (rows : List (List (Option Primitive))) (g1 : Rng),
          (enumerate_hparams [("a", RawSpec.tagged (Descriptor.normal 0 1))] 2
              { stream := fun n => n, pos := 0 }).2 = Except.ok (rows, g1)
          ∧ rows.length = 2
          ∧ ∀ i, i < 2 → rows.getD i []
              = ((sample_dists [Dist.normal 0 1]
                  (Rng.advance { stream := fun n => n, pos := 0 }
                    (i * ([Dist.normal 0 1] : List Dist).length))).1).map
                  some) := by
  have h0 := enumerate_hparams_continuous_only
    [("a", RawSpec.tagged (Descriptor.normal 0 1))]
    [("a", RawSpec.dist (Dist.normal 0 1))] [Dist.normal 0 1] 2
    { stream := fun n => n, pos := 0 } rfl
    (by intro d hd; fin_cases hd; rfl)
  exact h0

theorem requiredTrials_div (N D : Nat) (hD : 0 < D) :
    requiredTrials N D / D = (N + D - 1) / D :=
  Nat.mul_div_cancel _ hD

theorem requiredTrials_mul (N D : Nat) (hD : 0 < D) :
    D * (requiredTrials N D / D) = requiredTrials N D := by
  rw [requiredTrials_div N D hD, requiredTrials, Nat.mul_comm]

/-- Claim C1: for every mixed space (at least one discrete and at least one
continuous parameter, with nonempty discrete grid) and every
`num_trials = N > 0`, the planner computes
`required = ceil(N / D) * D` with `D` the size of the Cartesian product of
the discrete subset; it fails with the grid-too-large configuration error
exactly when `required > 2 * N`, and otherwise returns exactly `required`
realizations: row `i` splices discrete combination `i / (required / D)` (the
discrete combinations in Cartesian-product order as the outer loop) with a
fresh, independent continuous draw per row (`required / D` draws per discrete
combination as the inner loop). -/
theorem enumerate_hparams_mixed_plan (hp hp1 : List (String × RawSpec))
    (dists : List Dist) (disc cont : List (Nat × Dist))
    (discReal : List (List Primitive)) (N : Nat) (g : Rng)
    (hnorm : normalizeLoop hp = (hp1, Except.ok dists))
    (hsplit : discrete_continuous_split dists = (disc, cont))
    (hdne : disc ≠ []) (hcne : cont ≠ [])
    (henum : enumerate_dists (disc.map Prod.snd) = Except.ok discReal)
    (hD : 0 < discReal.length) (hN : 0 < N) :
    (2 * N < requiredTrials N discReal.length →
      (enumerate_hparams hp N g).2 = Except.error gridTooLargeMsg)
    ∧ (requiredTrials N discReal.length ≤ 2 * N →
      ∃ (rows : List (List (Option Primitive))) (g1 : Rng),
        (enumerate_hparams hp N g).2 = Except.ok (rows, g1)
        ∧ rows.length = requiredTrials N discReal.length
        ∧ ∀ i, i < requiredTrials N discReal.length →
            rows.getD i []
              = spliceOne hp1.length (disc.map Prod.fst)
                  (discReal.getD
                    (i / (requiredTrials N discReal.length / discReal.length))
                    [])
                  (cont.map Prod.fst)
                  (sample_dists (cont.map Prod.snd)
                    (g.advance (i * cont.length))).1) := by
  have hsnd := enumerate_hparams_snd_eq hp hp1 dists N g hnorm
  have hdE : disc.isEmpty = false := by
    cases disc with
    | nil => exact absurd rfl hdne
    | cons a b => rfl
  have hcE : cont.isEmpty = false := by
    cases cont with
    | nil => exact absurd rfl hcne
    | cons a b => rfl
  rw [hsnd]
  unfold plannerCore
  rw [hsplit]
  dsimp only
  rw [if_neg (by rw [hdE, hcE]; simp), if_neg (by omega),
    if_neg (by rw [hdE, hcE]; simp), henum]
  dsimp only
  rw [if_neg (by omega)]
  constructor
  · intro h
    rw [if_pos h]
  · intro h
    rw [if_neg (by omega)]
    refine ⟨(mixedOuter hp1.length (disc.map Prod.fst) (cont.map Prod.fst)
        (cont.map Prod.snd) (requiredTrials N discReal.length
          / discReal.length) discReal g).1,
      (mixedOuter hp1.length (disc.map Prod.fst) (cont.map Prod.fst)
        (cont.map Prod.snd) (requiredTrials N discReal.length
          / discReal.length) discReal g).2, rfl, ?_, ?_⟩
    · rw [mixedOuter_length, requiredTrials_mul N discReal.length hD]
    · intro i hi
      rw [mixedOuter_getD _ _ _ _ _ _ _ _
        (by rw [requiredTrials_mul N discReal.length hD]; exact hi)]
      simp only [List.length_map]

/-- Witness for C1: the spec's example `D = 3`, `num_trials = 4`, so
`required = 6 ≤ 8`; the call succeeds with six rows. -/
theorem enumerate_hparams_mixed_plan_witness :
    ∃ (rows : List (List (Option Primitive))) (g1 : Rng),
      (enumerate_hparams
          [("a", RawSpec.list [Primitive.int 1, Primitive.int 2,
            Primitive.int 3]),
            ("b", RawSpec.tagged (Descriptor.normal 0 1))] 4
          { stream := fun n => n, pos := 0 }).2 = Except.ok (rows, g1)
      ∧ rows.length = 6 := by
  obtain ⟨rows, g1, h1, h2, -⟩ := (enumerate_hparams_mixed_plan
    [("a", RawSpec.list [Primitive.int 1, Primitive.int 2, Primitive.int 3]),
      ("b", RawSpec.tagged (Descriptor.normal 0 1))]
    [("a", RawSpec.dist (Dist.categorical
        [Primitive.int 1, Primitive.int 2, Primitive.int 3] true)),
      ("b", RawSpec.dist (Dist.normal 0 1))]
    [Dist.categorical [Primitive.int 1, Primitive.int 2, Primitive.int 3] true,
      Dist.normal 0 1]
    [(0, Dist.categorical [Primitive.int 1, Primitive.int 2,
        Primitive.int 3] true)]
    [(1, Dist.normal 0 1)]
    [[Primitive.int 1], [Primitive.int 2], [Primitive.int 3]]
    4 { stream := fun n => n, pos := 0 }
    rfl rfl (by simp) (by simp) rfl (by simp) (by omega)).2
    (by decide)
  exact ⟨rows, g1, h1, by rw [h2]; decide⟩

theorem getD_mem_of_lt {α : Type} (l : List α) (j : Nat) (hj : j < l.length)
    (dflt : α) : l.getD j dflt ∈ l := by
  rw [List.getD_eq_getElem _ _ hj]
  exact List.getElem_mem _

theorem get_eq_getD {α : Type} (l : List α) (j : Nat) (hj : j < l.length)
    (dflt : α) : l.get ⟨j, hj⟩ = l.getD j dflt := by
  rw [List.getD_eq_getElem _ _ hj]
  rfl

theorem row_from_cartesian (dists : List Dist) (Ls : List (List Primitive))
    (hall : ∀ d ∈ dists, d.is_discrete = true)
    (henum : enumerateAll dists = Except.ok Ls)
    (r : List Primitive) (hr : r ∈ cartesianProduct Ls) :
    (r.map some).length = dists.length
    ∧ ∀ (j : Nat) (hj : j < dists.length),
        ∃ p, (r.map some).getD j none = some p
          ∧ belongsTo (dists.get ⟨j, hj⟩) p := by
  obtain ⟨hlen, hent⟩ := cartesianRow_spec dists Ls henum r hr
  constructor
  · rw [List.length_map, hlen]
  · intro j hj
    obtain ⟨hmem, henumj⟩ := hent j hj
    have hjr : j < r.length := by omega
    refine ⟨r.getD j (.int 0), ?_, ?_⟩
    · rw [List.getD_eq_getElem _ _ (by rw [List.length_map]; omega),
        List.getElem_map, List.getD_eq_getElem _ _ hjr]
    · rw [get_eq_getD dists j hj (Dist.categorical [] true)]
      unfold belongsTo
      rw [if_pos (hall _ (getD_mem_of_lt dists j hj _))]
      exact ⟨Ls.getD j [], henumj, hmem⟩

theorem row_from_samples (dists : List Dist)
    (hall : ∀ d ∈ dists, d.is_discrete = false) (g0 : Rng) :
    ((sample_dists dists g0).1.map some).length = dists.length
    ∧ ∀ (j : Nat) (hj : j < dists.length),
        ∃ p, ((sample_dists dists g0).1.map some).getD j none = some p
          ∧ belongsTo (dists.get ⟨j, hj⟩) p := by
  constructor
  · rw [List.length_map, sample_dists_length]
  · intro j hj
    have hjs : j < (sample_dists dists g0).1.length := by
      rw [sample_dists_length]
      omega
    refine ⟨((dists.getD j (.categorical [] true)).sample (g0.advance j)).1,
      ?_, ?_⟩
    · rw [List.getD_eq_getElem _ _ (by rw [List.length_map]; omega),
        List.getElem_map, ← List.getD_eq_getElem _ (Primitive.int 0) hjs,
        sample_dists_getD dists g0 j hj]
    · rw [get_eq_getD dists j hj (Dist.categorical [] true)]
      unfold belongsTo
      rw [if_neg (by rw [hall _ (getD_mem_of_lt dists j hj _)]; simp)]
      exact ⟨g0.advance j, rfl⟩

theorem row_from_mixed (dists : List Dist) (disc cont : List (Nat × Dist))
    (hsplit : discrete_continuous_split dists = (disc, cont))
    (Ls : List (List Primitive))
    (henum : enumerateAll (disc.map Prod.snd) = Except.ok Ls)
    (dr : List Primitive) (hdr : dr ∈ cartesianProduct Ls) (g0 : Rng) :
    (spliceOne dists.length (disc.map Prod.fst) dr (cont.map Prod.fst)
        (sample_dists (cont.map Prod.snd) g0).1).length = dists.length
    ∧ ∀ (j : Nat) (hj : j < dists.length),
        ∃ p, (spliceOne dists.length (disc.map Prod.fst) dr
              (cont.map Prod.fst)
              (sample_dists (cont.map Prod.snd) g0).1).getD j none = some p
          ∧ belongsTo (dists.get ⟨j, hj⟩) p := by
  have hd1 : (dcsGo 0 dists).1 = disc := congrArg Prod.fst hsplit
  have hd2 : (dcsGo 0 dists).2 = cont := congrArg Prod.snd hsplit
  obtain ⟨hdrlen, hdrent⟩ := cartesianRow_spec (disc.map Prod.snd) Ls henum
    dr hdr
  refine ⟨spliceOne_length _ _ _ _ _, ?_⟩
  intro j hj
  have hget : dists.get ⟨j, hj⟩ = dists.getD j (Dist.categorical [] true) :=
    get_eq_getD dists j hj _
  rcases dcsGo_cover 0 dists j hj (Dist.categorical [] true)
    with ⟨hjd, hmem⟩ | ⟨hjd, hmem⟩
  · rw [hd1, Nat.zero_add] at hmem
    obtain ⟨k, hk, hkeq⟩ := List.mem_iff_getElem.mp hmem
    have hkfst : (disc.map Prod.fst).getD k 0 = j := by
      rw [List.getD_eq_getElem _ _ (by simpa using hk), List.getElem_map,
        hkeq]
    have hksnd : (disc.map Prod.snd).getD k (Dist.categorical [] true)
        = dists.getD j (Dist.categorical [] true) := by
      rw [List.getD_eq_getElem _ _ (by simpa using hk), List.getElem_map,
        hkeq]
    have hnd : (disc.map Prod.fst).Nodup := by
      apply nodup_of_pairwise_lt
      rw [← hd1]
      exact dcsGo_fst_pairwise 0 dists
    have hnotin : (disc.map Prod.fst).getD k 0 ∉ cont.map Prod.fst := by
      rw [hkfst]
      intro hcontr
      apply dcsGo_disjoint dists j
      · rw [hd1]
        exact List.mem_map.mpr ⟨(j, dists.getD j (Dist.categorical [] true)),
          hmem, rfl⟩
      · rw [hd2]
        exact hcontr
    have hval := spliceOne_getD_disc dists.length (disc.map Prod.fst) dr
      (cont.map Prod.fst) (sample_dists (cont.map Prod.snd) g0).1 hnd k
      (by simpa using hk) (by rw [hdrlen]; simpa using hk)
      (by rw [hkfst]; omega) hnotin
    rw [hkfst] at hval
    refine ⟨dr.getD k (.int 0), hval, ?_⟩
    rw [hget]
    unfold belongsTo
    rw [if_pos hjd]
    obtain ⟨hmemk, henumk⟩ := hdrent k (by simpa using hk)
    rw [hksnd] at henumk
    exact ⟨Ls.getD k [], henumk, hmemk⟩
  · rw [hd2, Nat.zero_add] at hmem
    obtain ⟨k, hk, hkeq⟩ := List.mem_iff_getElem.mp hmem
    have hkfst : (cont.map Prod.fst).getD k 0 = j := by
      rw [List.getD_eq_getElem _ _ (by simpa using hk), List.getElem_map,
        hkeq]
    have hksnd : (cont.map Prod.snd).getD k (Dist.categorical [] true)
        = dists.getD j (Dist.categorical [] true) := by
      rw [List.getD_eq_getElem _ _ (by simpa using hk), List.getElem_map,
        hkeq]
    have hnd : (cont.map Prod.fst).Nodup := by
      apply nodup_of_pairwise_lt
      rw [← hd2]
      exact dcsGo_snd_pairwise 0 dists
    have hval := spliceOne_getD_cont dists.length (disc.map Prod.fst) dr
      (cont.map Prod.fst) (sample_dists (cont.map Prod.snd) g0).1 hnd k
      (by simpa using hk)
      (by rw [sample_dists_length]; simpa using hk)
      (by rw [hkfst]; omega)
    rw [hkfst] at hval
    have hsampk : ((sample_dists (cont.map Prod.snd) g0).1).getD k (.int 0)
        = ((dists.getD j (Dist.categorical [] true)).sample
            (g0.advance k)).1 := by
      rw [sample_dists_getD (cont.map Prod.snd) g0 k (by simpa using hk),
        hksnd]
    refine ⟨((dists.getD j (Dist.categorical [] true)).sample
        (g0.advance k)).1, by rw [hval, hsampk], ?_⟩
    rw [hget]
    unfold belongsTo
    rw [if_neg (by rw [hjd]; simp)]
    exact ⟨g0.advance k, rfl⟩

theorem plannerCore_rows_shape (dists : List Dist) (N : Nat) (g : Rng)
    (rows : List (List (Option Primitive))) (g1 : Rng)
    (h : plannerCore dists.length dists N g = Except.ok (rows, g1)) :
    ∀ row ∈ rows, row.length = dists.length
      ∧ ∀ (j : Nat) (hj : j < dists.length),
          ∃ p, row.getD j none = some p
            ∧ belongsTo (dists.get ⟨j, hj⟩) p := by
  obtain ⟨disc, cont, hsplit⟩ :
      ∃ a b, discrete_continuous_split dists = (a, b) := ⟨_, _, rfl⟩
  have hd1 : (dcsGo 0 dists).1 = disc := congrArg Prod.fst hsplit
  have hd2 : (dcsGo 0 dists).2 = cont := congrArg Prod.snd hsplit
  by_cases hd : disc = []
  · by_cases hc : cont = []
    · -- no parameters at all
      subst hd hc
      have hnil : dists = [] := nil_of_both_empty dists hd1 hd2
      subst hnil
      cases N with
      | zero => simp [plannerCore, discrete_continuous_split, dcsGo] at h
      | succ m =>
        rw [show ([] : List Dist).length = 0 from rfl, plannerCore_nil] at h
        simp only [Except.ok.injEq] at h
        intro row hrow
        have hrows : rows = (mixedOuter 0 [] [] [] (m + 1) [[]] g).1 := by
          rw [h]
        rw [hrows] at hrow
        obtain ⟨i, hi, heq⟩ := List.mem_iff_getElem.mp hrow
        have hi' : i < (m + 1) := by
          rw [mixedOuter_length] at hi
          simpa using hi
        have hrow0 : row = [] := by
          rw [← heq, ← List.getD_eq_getElem _ [] hi,
            mixedOuter_getD 0 [] [] [] (m + 1) [[]] g i (by simpa using hi')]
          simp [spliceOne, assignAt]
        subst hrow0
        exact ⟨rfl, fun j hj => by simp at hj⟩
    · -- purely continuous
      subst hd
      have hall : ∀ d ∈ dists, d.is_discrete = false :=
        all_continuous_of_disc_empty dists hd1
      have hmapC : cont.map Prod.snd = dists := by
        rw [← hd2]
        exact (dcsGo_all_continuous 0 dists hall).2
      have hcE : cont.isEmpty = false := by
        cases cont with
        | nil => exact absurd rfl hc
        | cons a b => rfl
      unfold plannerCore at h
      rw [hsplit] at h
      dsimp only at h
      rw [if_neg (by simp)] at h
      by_cases hN : N = 0
      · rw [if_pos hN] at h
        simp at h
      · rw [if_neg hN, if_pos (by rw [hcE]; rfl), hmapC] at h
        simp only [Except.ok.injEq, Prod.mk.injEq] at h
        obtain ⟨hrows, -⟩ := h
        intro row hrow
        rw [← hrows] at hrow
        obtain ⟨r, hr, hreq⟩ := List.mem_map.mp hrow
        obtain ⟨i, hi, heqr⟩ := List.mem_iff_getElem.mp hr
        have hiN : i < N := by
          have := sampleMany_length dists N g
          omega
        have hrs : r = (sample_dists dists
            (g.advance (i * dists.length))).1 := by
          rw [← heqr, ← List.getD_eq_getElem _ [] hi,
            sampleMany_getD dists N g i hiN]
        rw [← hreq, hrs]
        exact row_from_samples dists hall (g.advance (i * dists.length))
  · by_cases hc : cont = []
    · -- purely discrete
      subst hc
      have hall : ∀ d ∈ dists, d.is_discrete = true :=
        all_discrete_of_cont_empty dists hd2
      have hmap : disc.map Prod.snd = dists := by
        rw [← hd1]
        exact (dcsGo_all_discrete 0 dists hall).1
      have hdE : disc.isEmpty = false := by
        cases disc with
        | nil => exact absurd rfl hd
        | cons a b => rfl
      unfold plannerCore at h
      rw [hsplit] at h
      dsimp only at h
      rw [if_pos (by rw [hdE]; rfl), hmap] at h
      revert h
      cases hed : enumerate_dists dists with
      | error e => intro h; simp at h
      | ok realizations =>
        intro h
        dsimp only at h
        unfold enumerate_dists at hed
        revert hed
        cases hLs : enumerateAll dists with
        | error e => intro hed; simp at hed
        | ok Ls =>
          intro hed
          simp only [Except.ok.injEq] at hed
          by_cases hNc : (N = 0 ∨ realizations.length < N)
          · rw [if_pos hNc] at h
            simp only [Except.ok.injEq, Prod.mk.injEq] at h
            obtain ⟨hrows, -⟩ := h
            intro row hrow
            rw [← hrows] at hrow
            obtain ⟨r, hr, hreq⟩ := List.mem_map.mp hrow
            rw [← hed] at hr
            rw [← hreq]
            exact row_from_cartesian dists Ls hall hLs r hr
          · rw [if_neg hNc] at h
            push_neg at hNc
            obtain ⟨hN0, hle⟩ := hNc
            simp only [Except.ok.injEq, Prod.mk.injEq] at h
            obtain ⟨hrows, -⟩ := h
            intro row hrow
            rw [← hrows] at hrow
            obtain ⟨r, hr, hreq⟩ := List.mem_map.mp hrow
            obtain ⟨i, hi, heqr⟩ := List.mem_iff_getElem.mp hr
            have hiN : i < N := by
              have := randomChoices_length realizations N g
              omega
            have hpos : 0 < realizations.length := by omega
            have hrmem : r ∈ realizations := by
              rw [← heqr, ← List.getD_eq_getElem _ [] hi,
                randomChoices_getD realizations N g i hiN]
              exact getD_mem_of_lt realizations _ (Nat.mod_lt _ hpos) []
            rw [← hed] at hrmem
            rw [← hreq]
            exact row_from_cartesian dists Ls hall hLs r hrmem
    · -- mixed
      have hdE : disc.isEmpty = false := by
        cases disc with
        | nil => exact absurd rfl hd
        | cons a b => rfl
      have hcE : cont.isEmpty = false := by
        cases cont with
        | nil => exact absurd rfl hc
        | cons a b => rfl
      unfold plannerCore at h
      rw [hsplit] at h
      dsimp only at h
      rw [if_neg (by rw [hdE, hcE]; simp)] at h
      by_cases hN : N = 0
      · rw [if_pos hN] at h
        simp at h
      · rw [if_neg hN, if_neg (by rw [hdE, hcE]; simp)] at h
        revert h
        cases hed : enumerate_dists (disc.map Prod.snd) with
        | error e => intro h; simp at h
        | ok discReal =>
          intro h
          dsimp only at h
          unfold enumerate_dists at hed
          revert hed
          cases hLs : enumerateAll (disc.map Prod.snd) with
          | error e => intro hed; simp at hed
          | ok Ls =>
            intro hed
            simp only [Except.ok.injEq] at hed
            by_cases hD0 : discReal.length = 0
            · rw [if_pos hD0] at h
              simp at h
            · rw [if_neg hD0] at h
              by_cases hguard : 2 * N < requiredTrials N discReal.length
              · rw [if_pos hguard] at h
                simp at h
              · rw [if_neg hguard] at h
                simp only [Except.ok.injEq, Prod.mk.injEq] at h
                obtain ⟨hrows, -⟩ := h
                have hperD : 0 < requiredTrials N discReal.length
                    / discReal.length := by
                  rw [requiredTrials_div N discReal.length (by omega)]
                  refine (Nat.le_div_iff_mul_le (by omega)).mpr ?_
                  omega
                intro row hrow
                rw [← hrows] at hrow
                obtain ⟨i, hi, heqr⟩ := List.mem_iff_getElem.mp hrow
                have hiN : i < discReal.length
                    * (requiredTrials N discReal.length
                      / discReal.length) := by
                  have := mixedOuter_length dists.length (disc.map Prod.fst)
                    (cont.map Prod.fst) (cont.map Prod.snd)
                    (requiredTrials N discReal.length / discReal.length)
                    discReal g
                  omega
                have hdiv : i / (requiredTrials N discReal.length
                    / discReal.length) < discReal.length :=
                  (Nat.div_lt_iff_lt_mul hperD).mpr hiN
                have hrowval : row = spliceOne dists.length
                    (disc.map Prod.fst)
                    (discReal.getD (i / (requiredTrials N discReal.length
                      / discReal.length)) [])
                    (cont.map Prod.fst)
                    (sample_dists (cont.map Prod.snd)
                      (g.advance (i * (cont.map Prod.snd).length))).1 := by
                  rw [← heqr, ← List.getD_eq_getElem _ [] hi,
                    mixedOuter_getD dists.length (disc.map Prod.fst)
                      (cont.map Prod.fst) (cont.map Prod.snd)
                      (requiredTrials N discReal.length / discReal.length)
                      discReal g i hiN]
                have hdrmem : discReal.getD
                    (i / (requiredTrials N discReal.length
                      / discReal.length)) [] ∈ cartesianProduct Ls := by
                  rw [hed]
                  exact getD_mem_of_lt discReal _ hdiv []
                rw [hrowval]
                exact row_from_mixed dists disc cont hsplit Ls hLs _ hdrmem
                  (g.advance (i * (cont.map Prod.snd).length))

/-- Claim C8: whenever `enumerate_hparams` returns, every realization has
length exactly the number of parameters of the input mapping, and the value
at each position belongs to the parameter at the same position of the
original ordered mapping (discrete positions carry a member of that
parameter's enumerable set, continuous positions a `sample()` result of that
parameter's distribution): the split preserves each parameter's original
index and realizations are reassembled with no omissions and no
reordering. -/
theorem realization_shape_invariant (hp hp1 : List (String × RawSpec))
    (dists : List Dist) (N : Nat) (g : Rng)
    (rows : List (List (Option Primitive))) (g1 : Rng)
    (hnorm : normalizeLoop hp = (hp1, Except.ok dists))
    (hok : (enumerate_hparams hp N g).2 = Except.ok (rows, g1)) :
    ∀ row ∈ rows, row.length = hp.length
      ∧ ∀ (j : Nat) (hj : j < dists.length),
          ∃ p, row.getD j none = some p
            ∧ belongsTo (dists.get ⟨j, hj⟩) p := by
  have hlen1 : hp1.length = hp.length := by
    have hfl := normalizeLoop_fst_length hp
    rw [hnorm] at hfl
    exact hfl
  have hlen2 : dists.length = hp.length :=
    normalizeLoop_ok_length hp dists (by rw [hnorm])
  rw [enumerate_hparams_snd_eq hp hp1 dists N g hnorm] at hok
  rw [hlen1, ← hlen2] at hok
  intro row hrow
  obtain ⟨h1, h2⟩ := plannerCore_rows_shape dists N g rows g1 hok row hrow
  exact ⟨by rw [h1, hlen2], h2⟩

/-- Witness for C8 on the discrete space `a ∈ {1, 2}` with full enumeration:
the first returned realization at position 0. -/
theorem realization_shape_invariant_witness :
    ([some (Primitive.int 1)] : List (Option Primitive)).length
        = ([("a", RawSpec.list [Primitive.int 1, Primitive.int 2])]).length
    ∧ ∃ p, ([some (Primitive.int 1)] : List (Option Primitive)).getD 0 none
          = some p
        ∧ belongsTo (([Dist.categorical [Primitive.int 1, Primitive.int 2]
            true]).get ⟨0, by decide⟩) p := by
  have h := realization_shape_invariant
    [("a", RawSpec.list [Primitive.int 1, Primitive.int 2])]
    [("a", RawSpec.dist
        (Dist.categorical [Primitive.int 1, Primitive.int 2] true))]
    [Dist.categorical [Primitive.int 1, Primitive.int 2] true]
    0 { stream := fun _ => 0, pos := 0 }
    [[some (Primitive.int 1)], [some (Primitive.int 2)]]
    { stream := fun _ => 0, pos := 0 } rfl rfl
    [some (Primitive.int 1)] (List.mem_cons_self _ _)
  exact ⟨h.1, h.2 0 (by decide)⟩

end Runx
